import Mathlib

/-!
# SaliencyFilters: the evaluation engine of `Source/evaluate.cpp`

A shallow embedding of the precision/recall accumulator `Stat` and of the per-image
`Evaluator` of `Source/evaluate.cpp`, together with the properties of the specification
that concern them.

Modelling conventions.

* `float` and `double` values are exact rationals (`ℚ`); rounding is not modelled.
  A `double` that may be the result of a division by zero is a `Dbl`, whose value `Dbl.nan`
  stands for the undefined result and is absorbing for the arithmetic, and every comparison
  with it is false.
* `long long` and `int` counters are `Int`; the counters of `Stat::add` are bounded by the
  number of pixels and cannot overflow, the image counter `sm_` is assumed not to.
* `std::vector`s of `N_BINS` elements are functions on `Fin N_BINS`.
* A `Mat_<float>` is its dimensions and its pixel function; only pixels inside the
  dimensions are read.
* `while` loops that need not terminate take a fuel argument, the number of times the loop
  condition may be evaluated, and return `none` when it is used up.
* The collaborators are inputs: the images of a dataset are the (score map, ground truth)
  pairs that the predictor and the catalog return for them, and the catalog is built from
  the list of names that `readdir` enumerates. A `std::string` is the list of its characters.
* `tbb::parallel_reduce` is modelled for one split of the index range.
-/

namespace SaliencyFilters

/-! ## Constants -/

/-- Number of bins for the PR curve (`const int N_BINS = 256`). -/
@[reducible] def N_BINS : Nat := 256

/-- Beta^2 for the f-measure (`const double F_BETA2 = 0.3`). -/
def F_BETA2 : ℚ := 3 / 10

/-- The literal `1e-10` that guards the denominators. -/
def eps : ℚ := 1 / 10000000000

/-! ## Matrices -/

/-- A `Mat_<float>`: `px j i` is the element `ptr<float>(j)[i]` of row `j`, column `i`. -/
structure Mat where
  rows : Nat
  cols : Nat
  px : Nat → Nat → ℚ

/-- The pixel coordinates `(j, i)` in the order of the nested loops
`for j < rows, for i < cols`. -/
def Mat.coords (m : Mat) : List (Nat × Nat) :=
  (List.range m.rows).flatMap fun j => (List.range m.cols).map fun i => (j, i)

/-- All values of a score map lie in `[0,1]`. -/
def Mat.inUnit (m : Mat) : Prop :=
  ∀ j, j < m.rows → ∀ i, i < m.cols → 0 ≤ m.px j i ∧ m.px j i ≤ 1

/-- Same dimensions. -/
def Mat.sameDims (a b : Mat) : Prop := a.rows = b.rows ∧ a.cols = b.cols

/-- Equal pixel-wise, for two matrices of the same dimensions. -/
def Mat.pixelEq (a b : Mat) : Prop :=
  ∀ j, j < a.rows → ∀ i, i < a.cols → a.px j i = b.px j i

/-! ## Loops over the bins -/

/-- The loop `for( int i=0; i<N_BINS; i++ )` over a state. -/
def forBins {σ : Type} (body : σ → Fin N_BINS → σ) (s : σ) : σ :=
  (List.finRange N_BINS).foldl body s

/-- The loop `for( int i=N_BINS-1; i>=0; i-- )` over a state. -/
def forBinsDown {σ : Type} (body : σ → Fin N_BINS → σ) (s : σ) : σ :=
  (List.finRange N_BINS).reverse.foldl body s

/-! ## Stat -/

/-- The `struct Stat`: scratch histograms `bins0`, `bins1`, the running sums `p_`, `r_`
and the number of images `sm_`. -/
structure Stat where
  bins0 : Fin N_BINS → Int
  bins1 : Fin N_BINS → Int
  p_ : Fin N_BINS → ℚ
  r_ : Fin N_BINS → ℚ
  sm_ : Int

/-- The constructor `Stat()`: all vectors are `N_BINS` zeros and `sm_` is 0. -/
def Stat.fresh : Stat :=
  { bins0 := fun _ => 0, bins1 := fun _ => 0, p_ := fun _ => 0, r_ := fun _ => 0, sm_ := 0 }

/-- One iteration of the loop of `operator+=`: `p_[i] += o.p_[i]; r_[i] += o.r_[i];`. -/
def Stat.mergeStep (o : Stat) (s : Stat) (i : Fin N_BINS) : Stat :=
  { s with
    p_ := Function.update s.p_ i (s.p_ i + o.p_ i)
    r_ := Function.update s.r_ i (s.r_ i + o.r_ i) }

/-- The merge `Stat::operator+=( const Stat & o )`, returning the updated `*this`. -/
def Stat.merge (s o : Stat) : Stat :=
  let t := forBins (Stat.mergeStep o) s
  { t with sm_ := t.sm_ + o.sm_ }

/-- Conversion of a floating-point value to `int`: truncation toward zero. -/
def trunc (q : ℚ) : Int := if 0 ≤ q then ⌊q⌋ else ⌈q⌉

/-- The bin of a score in `Stat::add`: `int s = psal[i]*(N_BINS-1)`. -/
def binOf (v : ℚ) : Int := trunc (v * ((N_BINS : ℚ) - 1))

/-- The element of an `N_BINS`-vector that the index `s` addresses, when there is one. -/
def binIx (s : Int) : Option (Fin N_BINS) :=
  if h : 0 ≤ s ∧ s < (N_BINS : Int) then some ⟨s.toNat, by omega⟩ else none

/-- The update `a[s] += d` of an `N_BINS`-vector. An index outside the vector (undefined
behaviour in C++) leaves it unchanged; for scores in `[0,1]` this does not happen. -/
def bump (a : Fin N_BINS → Int) (s : Int) (d : Int) : Fin N_BINS → Int :=
  match binIx s with
  | some k => Function.update a k (a k + d)
  | none => a

/-- The test `pgt[i] > 0.5` as the integer the `bool` converts to. -/
def fg (gt : Mat) (j i : Nat) : Int := if 1 / 2 < gt.px j i then 1 else 0

/-- One iteration of the reset loop of `add`: `bins0[i] = bins1[i] = 0`. -/
def Stat.resetStep (s : Stat) (i : Fin N_BINS) : Stat :=
  { s with bins1 := Function.update s.bins1 i 0, bins0 := Function.update s.bins0 i 0 }

/-- The body of the pixel loop of `add` at row `j`, column `i`; the state is the `Stat`
and the local `ngt`. -/
def Stat.pixelStep (sal gt : Mat) (st : Stat × Int) (ji : Nat × Nat) : Stat × Int :=
  let g := fg gt ji.1 ji.2
  let s := binOf (sal.px ji.1 ji.2)
  ({ st.1 with bins0 := bump st.1.bins0 s g, bins1 := bump st.1.bins1 s 1 }, st.2 + g)

/-- The nested pixel loops of `add`: `for j < sal.rows`, `for i < sal.cols`. -/
def Stat.pixelLoop (sal gt : Mat) (st : Stat × Int) : Stat × Int :=
  (List.range sal.rows).foldl
    (fun st j => (List.range sal.cols).foldl (fun st i => Stat.pixelStep sal gt st (j, i)) st) st

/-- The state of the descending sweep of `add`: the `Stat` and the locals `nsal`,
`nsal_and_gt`. -/
structure Sweep where
  st : Stat
  nsal : Int
  nsal_and_gt : Int

/-- The body of the descending sweep of `add` at bin `i`. -/
def Stat.sweepStep (ngt : Int) (w : Sweep) (i : Fin N_BINS) : Sweep :=
  let nsal_and_gt := w.nsal_and_gt + w.st.bins0 i
  let nsal := w.nsal + w.st.bins1 i
  { st := { w.st with
      p_ := Function.update w.st.p_ i (w.st.p_ i + 1 * (nsal_and_gt : ℚ) / ((nsal : ℚ) + eps))
      r_ := Function.update w.st.r_ i (w.st.r_ i + 1 * (nsal_and_gt : ℚ) / ((ngt : ℚ) + eps)) }
    nsal := nsal
    nsal_and_gt := nsal_and_gt }

/-- The accumulation `Stat::add( sal, gt )`, returning the updated `*this`. -/
def Stat.add (s : Stat) (sal gt : Mat) : Stat :=
  let s0 := forBins Stat.resetStep s
  let st := Stat.pixelLoop sal gt (s0, 0)
  let w := forBinsDown (Stat.sweepStep st.2) { st := st.1, nsal := 0, nsal_and_gt := 0 }
  { w.st with sm_ := w.st.sm_ + 1 }

/-! ## Closed forms of what `add` computes -/

/-- The bin index `s` addresses an element of the vectors, at position `i` or higher. -/
def inFrom (i : Fin N_BINS) (s : Int) : Prop := ((i : Nat) : Int) ≤ s ∧ s < (N_BINS : Int)

instance (i : Fin N_BINS) (s : Int) : Decidable (inFrom i s) := by
  unfold inFrom; infer_instance

/-- Number of pixels of `sal` whose bin is `i` or higher. -/
def predAt (sal : Mat) (i : Fin N_BINS) : Int :=
  (sal.coords.map fun ji => if inFrom i (binOf (sal.px ji.1 ji.2)) then (1 : Int) else 0).sum

/-- Number of foreground pixels (`gt > 0.5`) of `sal` whose bin is `i` or higher. -/
def tpAt (sal gt : Mat) (i : Fin N_BINS) : Int :=
  (sal.coords.map fun ji =>
    if inFrom i (binOf (sal.px ji.1 ji.2)) then fg gt ji.1 ji.2 else 0).sum

/-- Number of foreground pixels (`gt > 0.5`) among the pixels of `sal`. -/
def ngtOf (sal gt : Mat) : Int :=
  (sal.coords.map fun ji => fg gt ji.1 ji.2).sum

/-- The scratch histogram `bins0` that `add` leaves behind. -/
def hist0 (sal gt : Mat) (k : Fin N_BINS) : Int :=
  (sal.coords.map fun ji =>
    if binIx (binOf (sal.px ji.1 ji.2)) = some k then fg gt ji.1 ji.2 else 0).sum

/-- The scratch histogram `bins1` that `add` leaves behind. -/
def hist1 (sal : Mat) (k : Fin N_BINS) : Int :=
  (sal.coords.map fun ji =>
    if binIx (binOf (sal.px ji.1 ji.2)) = some k then (1 : Int) else 0).sum

/-- Sum of `b` over the elements of `l` that are at least `k`. -/
def cumFrom (b : Fin N_BINS → Int) (l : List (Fin N_BINS)) (k : Fin N_BINS) : Int :=
  ((l.filter fun k' => k ≤ k').map b).sum

/-- The Stats the engine can hold: a fresh one, one after `add` of a score map with values in
`[0,1]`, and the merge of two of them. -/
inductive Stat.Reachable : Stat → Prop
  | fresh : Stat.Reachable Stat.fresh
  | add (s : Stat) (sal gt : Mat) : Stat.Reachable s → sal.inUnit →
      Stat.Reachable (s.add sal gt)
  | merge (a b : Stat) : Stat.Reachable a → Stat.Reachable b → Stat.Reachable (a.merge b)

/-- Calling `add` on `s` for every (score map, ground truth) pair of `xs`, in order. -/
def Stat.addAll (s : Stat) (xs : List (Mat × Mat)) : Stat :=
  xs.foldl (fun t x => t.add x.1 x.2) s

/-- What one image adds to `p_[i]`. -/
def precisionTerm (i : Fin N_BINS) (x : Mat × Mat) : ℚ :=
  (tpAt x.1 x.2 i : ℚ) / ((predAt x.1 i : ℚ) + eps)

/-- What one image adds to `r_[i]`. -/
def recallTerm (i : Fin N_BINS) (x : Mat × Mat) : ℚ :=
  (tpAt x.1 x.2 i : ℚ) / ((ngtOf x.1 x.2 : ℚ) + eps)

/-! ## Doubles that may be undefined -/

/-- A `double` of the evaluator: a number, or the undefined result of a division by zero
(in the states this program reaches a zero denominator comes with a zero numerator, so the
undefined result is a NaN). -/
inductive Dbl where
  | nan : Dbl
  | num : ℚ → Dbl

/-- Addition of doubles. -/
def Dbl.add : Dbl → Dbl → Dbl
  | .num a, .num b => .num (a + b)
  | _, _ => .nan

/-- Multiplication of doubles. -/
def Dbl.mul : Dbl → Dbl → Dbl
  | .num a, .num b => .num (a * b)
  | _, _ => .nan

/-- Division of doubles; a zero denominator gives the undefined value. -/
def Dbl.div : Dbl → Dbl → Dbl
  | .num a, .num b => if b = 0 then .nan else .num (a / b)
  | _, _ => .nan

/-- The double is a number within `e` of `x`. -/
def Dbl.within (d : Dbl) (x e : ℚ) : Prop :=
  ∃ q, d = .num q ∧ |q - x| ≤ e

/-- The curve `Stat::precision()`: element `i` is `p_[i] / sm_`. -/
def Stat.precision (s : Stat) : Fin N_BINS → Dbl :=
  fun i => Dbl.div (.num (s.p_ i)) (.num (s.sm_ : ℚ))

/-- The curve `Stat::recall()`: element `i` is `r_[i] / sm_`. -/
def Stat.recall (s : Stat) : Fin N_BINS → Dbl :=
  fun i => Dbl.div (.num (s.r_ i)) (.num (s.sm_ : ℚ))

/-! ## OpenCV operations used by the evaluator -/

/-- An 8-bit single-channel matrix, the result of a comparison. -/
structure Mask where
  rows : Nat
  cols : Nat
  px : Nat → Nat → Nat

/-- The sum `sum( m )[0]` of all elements of a float matrix. -/
def Mat.sum (m : Mat) : ℚ :=
  (m.coords.map fun ji => m.px ji.1 ji.2).sum

/-- The matrix `abs( a - b )`. -/
def Mat.absDiff (a b : Mat) : Mat :=
  { rows := a.rows, cols := a.cols, px := fun j i => |a.px j i - b.px j i| }

/-- The comparison `m > T`: 255 where the element exceeds `T`, 0 elsewhere; nothing exceeds
an undefined `T`. -/
def Mat.gtMask (m : Mat) (T : Dbl) : Mask :=
  { rows := m.rows, cols := m.cols
    px := fun j i =>
      match T with
      | .num t => if t < m.px j i then 255 else 0
      | .nan => 0 }

/-- The element-wise bitwise and `a & b` of two masks. -/
def Mask.and (a b : Mask) : Mask :=
  { rows := a.rows, cols := a.cols, px := fun j i => Nat.land (a.px j i) (b.px j i) }

/-- The sum `sum( m )[0]` of all elements of a mask, a double. -/
def Mask.sum (m : Mask) : ℚ :=
  (((List.range m.rows).flatMap fun j => (List.range m.cols).map fun i => (j, i)).map
    fun ji => (m.px ji.1 ji.2 : ℚ)).sum

/-- Number of pixels of `m` that exceed `t`. -/
def Mat.countAbove (m : Mat) (t : ℚ) : Nat :=
  m.coords.countP fun ji => decide (t < m.px ji.1 ji.2)

/-! ## Evaluator -/

/-- The accumulators of `struct Evaluator` (the predictor `saliency_` is external: its score
map is an input of `evaluate`). -/
structure Evaluator where
  mae_ : Dbl
  p_ : Dbl
  r_ : Dbl
  f_ : Dbl
  cnt_ : Dbl
  stat_ : Stat

/-- The constructor `Evaluator( saliency )`: all sums zero and a fresh `Stat`. -/
def Evaluator.fresh : Evaluator :=
  { mae_ := .num 0, p_ := .num 0, r_ := .num 0, f_ := .num 0, cnt_ := .num 0,
    stat_ := Stat.fresh }

/-- The error `Evaluator::mae( sal, gt )`:
`sum( abs( sal - gt ) )[0] / sal.size().area()`. -/
def Evaluator.mae (sal gt : Mat) : Dbl :=
  Dbl.div (.num (sal.absDiff gt).sum) (.num ((sal.cols * sal.rows : Nat) : ℚ))

/-- The start of the adaptive threshold: `2.0 * sum( sal )[0] / (sal.cols*sal.rows)`. -/
def Evaluator.adaptiveStart (sal : Mat) : Dbl :=
  Dbl.div (.num (2 * sal.sum)) (.num ((sal.cols * sal.rows : Nat) : ℚ))

/-- The loop `while (sum( sal > adaptive_T )[0] == 0) adaptive_T /= 1.2;` started at `T`:
the threshold at which it exits, or `none` when the condition still holds after `fuel`
evaluations. -/
def Evaluator.shrink (sal : Mat) : Nat → Dbl → Option Dbl
  | 0, _ => none
  | fuel + 1, T =>
    if (sal.gtMask T).sum = 0 then Evaluator.shrink sal fuel (Dbl.div T (.num (6 / 5)))
    else some T

/-- The per-image numbers that `evaluate` computes before storing them. -/
structure Scores where
  e : Dbl
  T : Dbl
  p : Dbl
  r : Dbl
  f : Dbl

/-- The per-image part of `Evaluator::evaluate`: MAE, adaptive threshold, precision, recall
and F-measure of the score map `sal` against the ground truth `gt`. -/
def Evaluator.scores (fuel : Nat) (sal gt : Mat) : Option Scores :=
  let e := Evaluator.mae sal gt
  match Evaluator.shrink sal fuel (Evaluator.adaptiveStart sal) with
  | none => none
  | some T =>
    let tp : Dbl := .num ((sal.gtMask T).and (gt.gtMask (.num (1 / 2)))).sum
    let p := Dbl.div tp (.num (sal.gtMask T).sum)
    let r := Dbl.div tp (.num (gt.gtMask (.num (1 / 2))).sum)
    let f := Dbl.div (Dbl.mul (Dbl.mul (.num (1 + F_BETA2)) p) r)
      (Dbl.add (Dbl.add (Dbl.mul (.num F_BETA2) p) r) (.num eps))
    some { e := e, T := T, p := p, r := r, f := f }

/-- The step `Evaluator::evaluate( i )` on the score map `sal` the predictor returns for
image `i` and its ground truth `gt`; `none` when the threshold loop does not exit within
`fuel` evaluations of its condition. -/
def Evaluator.evaluate (fuel : Nat) (ev : Evaluator) (sal gt : Mat) : Option Evaluator :=
  let stat := ev.stat_.add sal gt
  match Evaluator.scores fuel sal gt with
  | none => none
  | some sc =>
    some { mae_ := Dbl.add ev.mae_ sc.e
           p_ := Dbl.add ev.p_ sc.p
           r_ := Dbl.add ev.r_ sc.r
           f_ := Dbl.add ev.f_ sc.f
           cnt_ := Dbl.add ev.cnt_ (.num 1)
           stat_ := stat }

/-- A binary mask: every pixel is 0 or 1. -/
def Mat.isBinary (m : Mat) : Prop :=
  ∀ j, j < m.rows → ∀ i, i < m.cols → m.px j i = 0 ∨ m.px j i = 1

/-- The F-measure that `evaluate` computes from precision 1 and recall 1. -/
def perfectF : ℚ := (1 + F_BETA2) * 1 * 1 / (F_BETA2 * 1 + 1 + eps)

/-! ## Aggregation driver -/

/-- The loop `for( i in the range ) evaluate( i )` of `evalAll` and of `operator()`, over
the (score map, ground truth) pairs of the images of the range; `none` when one of the
steps does not return. -/
def Evaluator.evalRange (fuel : Nat) (ev : Evaluator) (xs : List (Mat × Mat)) :
    Option Evaluator :=
  xs.foldlM (fun e x => Evaluator.evaluate fuel e x.1 x.2) ev

/-- The splitting constructor `Evaluator( o, tbb::split )`: sums zero and a fresh `Stat`. -/
def Evaluator.split (_o : Evaluator) : Evaluator :=
  { mae_ := .num 0, p_ := .num 0, r_ := .num 0, f_ := .num 0, cnt_ := .num 0,
    stat_ := Stat.fresh }

/-- The reduction `Evaluator::join( o )`, returning the updated `*this`. -/
def Evaluator.join (ev o : Evaluator) : Evaluator :=
  { mae_ := Dbl.add ev.mae_ o.mae_
    p_ := Dbl.add ev.p_ o.p_
    r_ := Dbl.add ev.r_ o.r_
    f_ := Dbl.add ev.f_ o.f_
    cnt_ := Dbl.add ev.cnt_ o.cnt_
    stat_ := ev.stat_.merge o.stat_ }

/-- The normalisation at the end of `evalAll`:
`mae_ /= cnt_; p_ /= cnt_; r_ /= cnt_; f_ /= cnt_;`. -/
def Evaluator.normalize (ev : Evaluator) : Evaluator :=
  { ev with
    mae_ := Dbl.div ev.mae_ ev.cnt_
    p_ := Dbl.div ev.p_ ev.cnt_
    r_ := Dbl.div ev.r_ ev.cnt_
    f_ := Dbl.div ev.f_ ev.cnt_ }

/-- The sequential `Evaluator::evalAll()` over the images of the dataset. -/
def Evaluator.evalAll (fuel : Nat) (ev : Evaluator) (data : List (Mat × Mat)) :
    Option Evaluator :=
  match Evaluator.evalRange fuel ev data with
  | some a => some a.normalize
  | none => none

/-- The `USE_TBB` variant of `Evaluator::evalAll()` when `parallel_reduce` splits the range
once, at `k`: `*this` evaluates `[0,k)`, a split copy evaluates `[k,n)`, the copy is joined
into `*this`, and the sums are normalised. -/
def Evaluator.evalAllSplit (fuel : Nat) (ev : Evaluator) (k : Nat) (data : List (Mat × Mat)) :
    Option Evaluator :=
  match Evaluator.evalRange fuel ev (data.take k),
      Evaluator.evalRange fuel ev.split (data.drop k) with
  | some a, some b => some (a.join b).normalize
  | _, _ => none

/-- Sum of a list of doubles, from zero. -/
def Dbl.sum (l : List Dbl) : Dbl := l.foldr Dbl.add (.num 0)

/-- The per-image numbers of `evaluate` as doubles, undefined when the step does not
return. -/
def Evaluator.scoreOf (fuel : Nat) (sel : Scores → Dbl) (x : Mat × Mat) : Dbl :=
  match Evaluator.scores fuel x.1 x.2 with
  | some sc => sel sc
  | none => .nan

/-! ## Dataset catalog -/

/-- The directory of the masks (`const std::string ground_truth_path = "data/gt/"`). -/
def ground_truth_path : List Char := "data/gt/".toList

/-- The directory of the images (`const std::string dataset_path = "data/images/"`). -/
def dataset_path : List Char := "data/images/".toList

/-- The `class Dataset`: the three `std::vector< std::string >` members; a `std::string`
is the list of its characters. -/
structure Dataset where
  im_ : List (List Char)
  gt_ : List (List Char)
  name_ : List (List Char)

/-- The body of the `readdir` loop of the constructor `Dataset()` for the entry `name`. -/
def Dataset.addEntry (d : Dataset) (name : List Char) : Dataset :=
  if name.length > 3 ∧ name.drop (name.length - 3) = "bmp".toList then
    let jpgname := name.take (name.length - 3) ++ "jpg".toList
    { gt_ := d.gt_ ++ [ground_truth_path ++ "/".toList ++ name]
      im_ := d.im_ ++ [dataset_path ++ "/".toList ++ jpgname]
      name_ := d.name_ ++ [name.take (name.length - 4)] }
  else d

/-- The constructor `Dataset()` on the names `readdir` enumerates, in that order. -/
def Dataset.build (entries : List (List Char)) : Dataset :=
  entries.foldl Dataset.addEntry { im_ := [], gt_ := [], name_ := [] }

/-- The count `Dataset::size()`. -/
def Dataset.size (d : Dataset) : Nat := d.gt_.length

/-- The accessor `Dataset::name( i )`; `none` outside the vector. -/
def Dataset.name (d : Dataset) (i : Nat) : Option (List Char) := d.name_[i]?

/-- A directory entry the catalog records: longer than 3 characters and ending in the mask
extension `bmp`. -/
def isMaskName (n : List Char) : Prop := 3 < n.length ∧ "bmp".toList <:+ n

instance (n : List Char) : Decidable (isMaskName n) := by
  unfold isMaskName; infer_instance

/-! ## Counts in the words of the specification -/

/-- `P_i` in the words of the specification: the number of pixels whose bin
`floor(score * (N_BINS-1))` is at least `i`. -/
def specP (sal : Mat) (i : Fin N_BINS) : Nat :=
  sal.coords.countP fun ji =>
    decide (((i : Nat) : Int) ≤ ⌊sal.px ji.1 ji.2 * ((N_BINS : ℚ) - 1)⌋)

/-- `TP_i` in the words of the specification: the number of those pixels that are
ground-truth foreground (`gt > 0.5`). -/
def specTP (sal gt : Mat) (i : Fin N_BINS) : Nat :=
  sal.coords.countP fun ji =>
    decide (((i : Nat) : Int) ≤ ⌊sal.px ji.1 ji.2 * ((N_BINS : ℚ) - 1)⌋
      ∧ 1 / 2 < gt.px ji.1 ji.2)

/-- `G` in the words of the specification: the total number of foreground pixels. -/
def specG (sal gt : Mat) : Nat :=
  sal.coords.countP fun ji => decide (1 / 2 < gt.px ji.1 ji.2)

/-- Number of pixels with `score >= θ`: the predicted set of a full-image pass at the
threshold `θ`. -/
def passP (sal : Mat) (θ : ℚ) : Nat :=
  sal.coords.countP fun ji => decide (θ ≤ sal.px ji.1 ji.2)

/-- Number of foreground pixels (`gt > 0.5`) with `score >= θ`. -/
def passTP (sal gt : Mat) (θ : ℚ) : Nat :=
  sal.coords.countP fun ji => decide (θ ≤ sal.px ji.1 ji.2 ∧ 1 / 2 < gt.px ji.1 ji.2)

/-- The Stats the engine can hold together with the number of `add` calls folded into
them: a fresh one (0), one more after an `add` of a score map with values in `[0,1]`, and
the sum for the merge of two of them. -/
inductive Stat.ReachableN : Stat → Nat → Prop
  | fresh : Stat.ReachableN Stat.fresh 0
  | add (s : Stat) (sal gt : Mat) (n : Nat) : Stat.ReachableN s n → sal.inUnit →
      Stat.ReachableN (s.add sal gt) (n + 1)
  | merge (a b : Stat) (n m : Nat) : Stat.ReachableN a n → Stat.ReachableN b m →
      Stat.ReachableN (a.merge b) (n + m)

/-! ## Example inputs -/

/-- The 1x1 map whose only pixel is 1. -/
def onePixel : Mat := { rows := 1, cols := 1, px := fun _ _ => 1 }

/-- The 1x1 map whose only pixel is 0. -/
def zeroPixel : Mat := { rows := 1, cols := 1, px := fun _ _ => 0 }

/-- The 1x2 map `[[1, 0]]`. -/
def oneZero : Mat := { rows := 1, cols := 2, px := fun _ i => if i = 0 then 1 else 0 }

/-- The 2x2 map `[[1,1],[0,0]]`: the top row is foreground. -/
def topRow : Mat := { rows := 2, cols := 2, px := fun j _ => if j = 0 then 1 else 0 }

/-- The empty 0x0 map. -/
def emptyMat : Mat := { rows := 0, cols := 0, px := fun _ _ => 0 }

/-- The 2x2 map `[[0,0],[1,1]]`: the inverse of `topRow`. -/
def bottomRow : Mat := { rows := 2, cols := 2, px := fun j _ => if j = 0 then 0 else 1 }

/-- The 1x1 map whose only pixel is `1/256`. -/
def lowPixel : Mat := { rows := 1, cols := 1, px := fun _ _ => 1 / 256 }

/-! ## The loops of `Stat` in closed form -/

theorem foldl_mergeStep (o : Stat) (l : List (Fin N_BINS)) (hl : l.Nodup) (s : Stat) :
    l.foldl (Stat.mergeStep o) s =
      { s with
        p_ := fun i => if i ∈ l then s.p_ i + o.p_ i else s.p_ i
        r_ := fun i => if i ∈ l then s.r_ i + o.r_ i else s.r_ i } := by
  induction l generalizing s with
  | nil => simp
  | cons a l ih =>
    rw [List.nodup_cons] at hl
    rw [List.foldl_cons, ih hl.2]
    have key : ∀ (f g : Fin N_BINS → ℚ),
        (fun i => if i ∈ l then Function.update f a (f a + g a) i + g i
          else Function.update f a (f a + g a) i)
        = fun i => if i ∈ a :: l then f i + g i else f i := by
      intro f g
      funext i
      by_cases hia : i = a
      · subst hia
        simp [hl.1]
      · simp [hia, Function.update_noteq hia]
    simp only [Stat.mergeStep, key]

theorem Stat.merge_eq (s o : Stat) :
    s.merge o =
      { bins0 := s.bins0, bins1 := s.bins1
        p_ := fun i => s.p_ i + o.p_ i
        r_ := fun i => s.r_ i + o.r_ i
        sm_ := s.sm_ + o.sm_ } := by
  simp [Stat.merge, forBins, foldl_mergeStep o _ (List.nodup_finRange N_BINS) s]

theorem foldl_resetStep (l : List (Fin N_BINS)) (s : Stat) :
    l.foldl Stat.resetStep s =
      { s with
        bins0 := fun i => if i ∈ l then 0 else s.bins0 i
        bins1 := fun i => if i ∈ l then 0 else s.bins1 i } := by
  induction l generalizing s with
  | nil => simp
  | cons a l ih =>
    rw [List.foldl_cons, ih]
    have key : ∀ (f : Fin N_BINS → Int),
        (fun i => if i ∈ l then 0 else Function.update f a 0 i)
        = fun i => if i ∈ a :: l then 0 else f i := by
      intro f
      funext i
      by_cases hia : i = a
      · subst hia
        simp
      · simp [hia, Function.update_noteq hia]
    simp only [Stat.resetStep, key]

theorem forBins_resetStep (s : Stat) :
    forBins Stat.resetStep s = { s with bins0 := fun _ => 0, bins1 := fun _ => 0 } := by
  simp [forBins, foldl_resetStep]

theorem pixelLoop_eq_foldl (sal gt : Mat) (st : Stat × Int) :
    Stat.pixelLoop sal gt st = sal.coords.foldl (Stat.pixelStep sal gt) st := by
  unfold Stat.pixelLoop Mat.coords
  generalize List.range sal.rows = js
  induction js generalizing st with
  | nil => simp
  | cons j js ih =>
    simp only [List.foldl_cons, List.flatMap_cons, List.foldl_append, List.foldl_map]
    exact ih _

theorem bump_apply (a : Fin N_BINS → Int) (s d : Int) (k : Fin N_BINS) :
    bump a s d k = a k + if binIx s = some k then d else 0 := by
  unfold bump
  cases h : binIx s with
  | none => simp
  | some k0 =>
    by_cases hk : k = k0
    · subst hk; simp
    · have : k0 ≠ k := fun e => hk e.symm
      simp [Function.update_noteq hk, this]

theorem foldl_pixelStep (sal gt : Mat) (L : List (Nat × Nat)) (st : Stat × Int) :
    L.foldl (Stat.pixelStep sal gt) st =
      ({ st.1 with
          bins0 := fun k => st.1.bins0 k +
            (L.map fun ji => if binIx (binOf (sal.px ji.1 ji.2)) = some k
              then fg gt ji.1 ji.2 else 0).sum
          bins1 := fun k => st.1.bins1 k +
            (L.map fun ji => if binIx (binOf (sal.px ji.1 ji.2)) = some k
              then (1 : Int) else 0).sum },
        st.2 + (L.map fun ji => fg gt ji.1 ji.2).sum) := by
  induction L generalizing st with
  | nil => simp
  | cons a L ih =>
    rw [List.foldl_cons, ih]
    simp only [Stat.pixelStep, List.map_cons, List.sum_cons, bump_apply]
    refine Prod.ext ?_ (by simp [add_assoc])
    simp only [add_assoc]

theorem cumFrom_cons_of_le (b : Fin N_BINS → Int) (a : Fin N_BINS) (l : List (Fin N_BINS))
    (k : Fin N_BINS) (h : k ≤ a) : cumFrom b (a :: l) k = b a + cumFrom b l k := by
  simp [cumFrom, List.filter_cons, h]

theorem cumFrom_eq_zero (b : Fin N_BINS → Int) (l : List (Fin N_BINS)) (k : Fin N_BINS)
    (h : ∀ k' ∈ l, k' < k) : cumFrom b l k = 0 := by
  have : l.filter (fun k' => k ≤ k') = [] := by
    rw [List.filter_eq_nil_iff]
    intro k' hk'
    simpa using h k' hk'
  simp [cumFrom, this]

theorem foldl_sweepStep (ngt : Int) (l : List (Fin N_BINS)) (hl : l.Pairwise (· > ·))
    (w : Sweep) :
    (l.foldl (Stat.sweepStep ngt) w).st.bins0 = w.st.bins0 ∧
    (l.foldl (Stat.sweepStep ngt) w).st.bins1 = w.st.bins1 ∧
    (l.foldl (Stat.sweepStep ngt) w).st.sm_ = w.st.sm_ ∧
    (∀ k, k ∉ l → (l.foldl (Stat.sweepStep ngt) w).st.p_ k = w.st.p_ k ∧
      (l.foldl (Stat.sweepStep ngt) w).st.r_ k = w.st.r_ k) ∧
    (∀ k, k ∈ l →
      (l.foldl (Stat.sweepStep ngt) w).st.p_ k = w.st.p_ k +
        1 * ((w.nsal_and_gt + cumFrom w.st.bins0 l k : Int) : ℚ) /
          (((w.nsal + cumFrom w.st.bins1 l k : Int) : ℚ) + eps) ∧
      (l.foldl (Stat.sweepStep ngt) w).st.r_ k = w.st.r_ k +
        1 * ((w.nsal_and_gt + cumFrom w.st.bins0 l k : Int) : ℚ) / ((ngt : ℚ) + eps)) := by
  induction l generalizing w with
  | nil => simp
  | cons a l ih =>
    rw [List.pairwise_cons] at hl
    obtain ⟨hb0, hb1, hsm, hout, hin⟩ := ih hl.2 (Stat.sweepStep ngt w a)
    have hal : a ∉ l := fun h => lt_irrefl a (hl.1 a h)
    rw [List.foldl_cons]
    refine ⟨hb0, hb1, hsm, ?_, ?_⟩
    · intro k hk
      rw [List.mem_cons, not_or] at hk
      obtain ⟨hp, hr⟩ := hout k hk.2
      rw [hp, hr]
      simp [Stat.sweepStep, Function.update_noteq hk.1]
    · intro k hk
      rw [List.mem_cons] at hk
      rcases hk with rfl | hk
      · obtain ⟨hp, hr⟩ := hout k hal
        rw [hp, hr]
        have h0 : ∀ b : Fin N_BINS → Int, cumFrom b (k :: l) k = b k := by
          intro b
          rw [cumFrom_cons_of_le b k l k le_rfl, cumFrom_eq_zero b l k hl.1, add_zero]
        simp [Stat.sweepStep, h0]
      · obtain ⟨hp, hr⟩ := hin k hk
        have hka : k ≠ a := fun e => hal (e ▸ hk)
        have hle : k ≤ a := le_of_lt (hl.1 k hk)
        rw [hp, hr, cumFrom_cons_of_le _ a l k hle, cumFrom_cons_of_le _ a l k hle]
        simp [Stat.sweepStep, Function.update_noteq hka, add_assoc]

theorem sum_map_single (l : List (Fin N_BINS)) (hl : l.Nodup) (k0 : Fin N_BINS) (g : Int) :
    (l.map fun k => if k0 = k then g else 0).sum = if k0 ∈ l then g else 0 := by
  induction l with
  | nil => simp
  | cons a l ih =>
    rw [List.nodup_cons] at hl
    rw [List.map_cons, List.sum_cons, ih hl.2]
    by_cases h : k0 = a
    · subst h; simp [hl.1]
    · have : ¬ k0 ∈ a :: l ↔ ¬ k0 ∈ l := by simp [h]
      by_cases h2 : k0 ∈ l <;> simp [h, h2]

theorem binIx_eq_some_iff (s : Int) (k : Fin N_BINS) :
    binIx s = some k ↔ s = ((k : Nat) : Int) := by
  unfold binIx
  constructor
  · intro h
    split at h
    · rename_i hs
      have := Option.some.inj h
      rw [← this]
      simp only
      omega
    · cases h
  · intro h
    have hk := k.isLt
    have hs : 0 ≤ s ∧ s < (N_BINS : Int) := by omega
    rw [dif_pos hs]
    congr 1
    apply Fin.ext
    simp only
    omega

theorem cumFrom_hits (l : List (Fin N_BINS)) (hl : l.Nodup) (hall : ∀ k, k ∈ l)
    (i : Fin N_BINS) (s g : Int) :
    cumFrom (fun k => if binIx s = some k then g else 0) l i = if inFrom i s then g else 0 := by
  unfold cumFrom
  cases h : binIx s with
  | none =>
    have hn : ¬ inFrom i s := by
      intro hi
      unfold inFrom at hi
      unfold binIx at h
      split at h
      · cases h
      · rename_i hs
        exact hs ⟨by omega, hi.2⟩
    simp [hn]
  | some k0 =>
    have hs := (binIx_eq_some_iff s k0).1 h
    have hnd : (l.filter fun k' => i ≤ k').Nodup := hl.filter _
    have := sum_map_single _ hnd k0 g
    simp only [Option.some.injEq]
    rw [this]
    have hmem : k0 ∈ l.filter (fun k' => i ≤ k') ↔ inFrom i s := by
      rw [List.mem_filter]
      unfold inFrom
      have := k0.isLt
      constructor
      · intro ⟨_, h2⟩
        have h3 : i ≤ k0 := by simpa using h2
        have h4 : (i : Nat) ≤ (k0 : Nat) := h3
        omega
      · intro h2
        refine ⟨hall k0, ?_⟩
        have : (i : Nat) ≤ (k0 : Nat) := by omega
        simpa using this
    by_cases hi : inFrom i s
    · simp [hi, hmem.2 hi]
    · have : ¬ k0 ∈ l.filter (fun k' => i ≤ k') := fun h => hi (hmem.1 h)
      simp [hi, this]

theorem cumFrom_add (b c : Fin N_BINS → Int) (l : List (Fin N_BINS)) (k : Fin N_BINS) :
    cumFrom (fun x => b x + c x) l k = cumFrom b l k + cumFrom c l k := by
  simp [cumFrom, List.sum_map_add]

theorem cumFrom_hist (l : List (Fin N_BINS)) (hl : l.Nodup) (hall : ∀ k, k ∈ l)
    (i : Fin N_BINS) (s g : Nat × Nat → Int) (L : List (Nat × Nat)) :
    cumFrom (fun k => (L.map fun ji => if binIx (s ji) = some k then g ji else 0).sum) l i
      = (L.map fun ji => if inFrom i (s ji) then g ji else 0).sum := by
  induction L with
  | nil => simp [cumFrom]
  | cons a L ih =>
    simp only [List.map_cons, List.sum_cons]
    rw [cumFrom_add, ih, cumFrom_hits l hl hall]

theorem downBins_pairwise : ((List.finRange N_BINS).reverse).Pairwise (· > ·) := by
  rw [List.pairwise_reverse]
  exact List.pairwise_lt_finRange N_BINS

theorem downBins_nodup : ((List.finRange N_BINS).reverse).Nodup :=
  List.nodup_reverse.2 (List.nodup_finRange N_BINS)

theorem downBins_mem (k : Fin N_BINS) : k ∈ (List.finRange N_BINS).reverse :=
  List.mem_reverse.2 (List.mem_finRange k)

theorem Stat.add_eq (s : Stat) (sal gt : Mat) :
    s.add sal gt =
      { bins0 := hist0 sal gt
        bins1 := hist1 sal
        p_ := fun i => s.p_ i + 1 * (tpAt sal gt i : ℚ) / ((predAt sal i : ℚ) + eps)
        r_ := fun i => s.r_ i + 1 * (tpAt sal gt i : ℚ) / ((ngtOf sal gt : ℚ) + eps)
        sm_ := s.sm_ + 1 } := by
  unfold Stat.add
  simp only [forBins_resetStep, pixelLoop_eq_foldl, foldl_pixelStep, forBinsDown]
  obtain ⟨hb0, hb1, hsm, -, hin⟩ := foldl_sweepStep
    (0 + (sal.coords.map fun ji => fg gt ji.1 ji.2).sum) _ downBins_pairwise
    { st := { bins0 := fun k => 0 + (sal.coords.map fun ji =>
                if binIx (binOf (sal.px ji.1 ji.2)) = some k then fg gt ji.1 ji.2 else 0).sum
              bins1 := fun k => 0 + (sal.coords.map fun ji =>
                if binIx (binOf (sal.px ji.1 ji.2)) = some k then (1 : Int) else 0).sum
              p_ := s.p_, r_ := s.r_, sm_ := s.sm_ }
      nsal := 0, nsal_and_gt := 0 }
  generalize List.foldl _ _ _ = w at hb0 hb1 hsm hin
  obtain ⟨st, nsal, nsa⟩ := w
  obtain ⟨b0, b1, p, r, sm⟩ := st
  simp only at hb0 hb1 hsm hin
  subst hb0 hb1 hsm
  simp only [zero_add, Stat.mk.injEq]
  refine ⟨rfl, rfl, ?_, ?_, trivial⟩
  · funext i
    rw [(hin i (downBins_mem i)).1]
    simp only [zero_add]
    rw [cumFrom_hist _ downBins_nodup downBins_mem, cumFrom_hist _ downBins_nodup downBins_mem]
    rfl
  · funext i
    rw [(hin i (downBins_mem i)).2]
    simp only [zero_add]
    rw [cumFrom_hist _ downBins_nodup downBins_mem]
    rfl

/-! ## Counting lemmas -/

theorem trunc_natCast (n : Nat) : trunc (n : ℚ) = n := by
  simp [trunc]

theorem binOf_one : binOf 1 = 255 := by
  have h : (1 : ℚ) * ((N_BINS : ℚ) - 1) = ((255 : Nat) : ℚ) := by norm_num [N_BINS]
  rw [binOf, h, trunc_natCast]
  rfl

theorem binOf_zero : binOf 0 = 0 := by
  simp [binOf, trunc]

theorem hist1_onePixel : hist1 onePixel ⟨255, by decide⟩ = 1 := by
  have hc : onePixel.coords = [(0, 0)] := by decide
  rw [hist1, hc]
  simp [onePixel, binOf_one, binIx]

theorem Mat.mem_coords (m : Mat) (ji : Nat × Nat) :
    ji ∈ m.coords ↔ ji.1 < m.rows ∧ ji.2 < m.cols := by
  obtain ⟨j, i⟩ := ji
  simp only [Mat.coords, List.mem_flatMap, List.mem_map, List.mem_range, Prod.mk.injEq]
  constructor
  · rintro ⟨a, ha, b, hb, rfl, rfl⟩
    exact ⟨ha, hb⟩
  · rintro ⟨hj, hi⟩
    exact ⟨j, hj, i, hi, rfl, rfl⟩

theorem eps_pos : 0 < eps := by
  norm_num [eps]

theorem binOf_range (v : ℚ) (h0 : 0 ≤ v) (h1 : v ≤ 1) :
    binOf v = ⌊v * 255⌋ ∧ 0 ≤ binOf v ∧ binOf v ≤ 255 := by
  have hN : ((N_BINS : ℚ) - 1) = 255 := by norm_num [N_BINS]
  have hnn : (0 : ℚ) ≤ v * 255 := by positivity
  have hb : binOf v = ⌊v * 255⌋ := by
    rw [binOf, hN, trunc, if_pos hnn]
  refine ⟨hb, ?_, ?_⟩
  · rw [hb]
    exact Int.floor_nonneg.2 hnn
  · rw [hb]
    have : v * 255 ≤ ((255 : Int) : ℚ) := by
      push_cast
      nlinarith
    exact Int.cast_le.1 (le_trans (Int.floor_le _) this)

theorem inFrom_zero_of_inUnit (sal : Mat) (hs : sal.inUnit) (ji : Nat × Nat)
    (hji : ji ∈ sal.coords) : inFrom ⟨0, by decide⟩ (binOf (sal.px ji.1 ji.2)) := by
  rw [Mat.mem_coords] at hji
  obtain ⟨h0, h1⟩ := hs ji.1 hji.1 ji.2 hji.2
  obtain ⟨-, hlo, hhi⟩ := binOf_range _ h0 h1
  unfold inFrom
  constructor
  · simpa using hlo
  · have : ((N_BINS : Nat) : Int) = 256 := rfl
    omega

theorem fg_nonneg (gt : Mat) (j i : Nat) : 0 ≤ fg gt j i := by
  unfold fg; split <;> decide

theorem fg_le_one (gt : Mat) (j i : Nat) : fg gt j i ≤ 1 := by
  unfold fg; split <;> decide

theorem tpAt_nonneg (sal gt : Mat) (i : Fin N_BINS) : 0 ≤ tpAt sal gt i := by
  unfold tpAt
  apply List.sum_nonneg
  intro x hx
  rw [List.mem_map] at hx
  obtain ⟨ji, -, rfl⟩ := hx
  split
  · exact fg_nonneg _ _ _
  · exact le_rfl

theorem ngtOf_nonneg (sal gt : Mat) : 0 ≤ ngtOf sal gt := by
  unfold ngtOf
  apply List.sum_nonneg
  intro x hx
  rw [List.mem_map] at hx
  obtain ⟨ji, -, rfl⟩ := hx
  exact fg_nonneg _ _ _

theorem predAt_nonneg (sal : Mat) (i : Fin N_BINS) : 0 ≤ predAt sal i := by
  unfold predAt
  apply List.sum_nonneg
  intro x hx
  rw [List.mem_map] at hx
  obtain ⟨ji, -, rfl⟩ := hx
  split <;> decide

theorem sum_map_le_sum_map {α : Type} (L : List α) (f g : α → Int)
    (h : ∀ x ∈ L, f x ≤ g x) : (L.map f).sum ≤ (L.map g).sum := by
  induction L with
  | nil => simp
  | cons a L ih =>
    simp only [List.map_cons, List.sum_cons]
    exact add_le_add (h a (List.mem_cons_self a L))
      (ih fun x hx => h x (List.mem_cons_of_mem a hx))

theorem tpAt_antitone (sal gt : Mat) (i k : Fin N_BINS) (h : i ≤ k) :
    tpAt sal gt k ≤ tpAt sal gt i := by
  unfold tpAt
  apply sum_map_le_sum_map
  intro ji _
  by_cases hk : inFrom k (binOf (sal.px ji.1 ji.2))
  · have hi : inFrom i (binOf (sal.px ji.1 ji.2)) := by
      unfold inFrom at hk ⊢
      have : (i : Nat) ≤ (k : Nat) := h
      omega
    rw [if_pos hk, if_pos hi]
  · rw [if_neg hk]
    split
    · exact fg_nonneg _ _ _
    · exact le_rfl

theorem tpAt_le_predAt (sal gt : Mat) (i : Fin N_BINS) : tpAt sal gt i ≤ predAt sal i := by
  unfold tpAt predAt
  apply sum_map_le_sum_map
  intro ji _
  split
  · exact fg_le_one _ _ _
  · exact le_rfl

theorem tpAt_le_ngtOf (sal gt : Mat) (i : Fin N_BINS) : tpAt sal gt i ≤ ngtOf sal gt := by
  unfold tpAt ngtOf
  apply sum_map_le_sum_map
  intro ji _
  split
  · exact le_rfl
  · exact fg_nonneg _ _ _

theorem tpAt_zero_of_inUnit (sal gt : Mat) (hs : sal.inUnit) :
    tpAt sal gt ⟨0, by decide⟩ = ngtOf sal gt := by
  unfold tpAt ngtOf
  congr 1
  apply List.map_congr_left
  intro ji hji
  rw [if_pos (inFrom_zero_of_inUnit sal hs ji hji)]

theorem Stat.add_p_ (s : Stat) (sal gt : Mat) (i : Fin N_BINS) :
    (s.add sal gt).p_ i = s.p_ i + (tpAt sal gt i : ℚ) / ((predAt sal i : ℚ) + eps) := by
  rw [Stat.add_eq]
  simp only [one_mul]

theorem Stat.add_r_ (s : Stat) (sal gt : Mat) (i : Fin N_BINS) :
    (s.add sal gt).r_ i = s.r_ i + (tpAt sal gt i : ℚ) / ((ngtOf sal gt : ℚ) + eps) := by
  rw [Stat.add_eq]
  simp only [one_mul]

theorem Stat.add_sm_ (s : Stat) (sal gt : Mat) : (s.add sal gt).sm_ = s.sm_ + 1 := by
  rw [Stat.add_eq]

theorem Stat.merge_p_ (s o : Stat) (i : Fin N_BINS) : (s.merge o).p_ i = s.p_ i + o.p_ i := by
  rw [Stat.merge_eq]

theorem Stat.merge_r_ (s o : Stat) (i : Fin N_BINS) : (s.merge o).r_ i = s.r_ i + o.r_ i := by
  rw [Stat.merge_eq]

theorem Stat.merge_sm_ (s o : Stat) : (s.merge o).sm_ = s.sm_ + o.sm_ := by
  rw [Stat.merge_eq]

theorem Stat.addAll_fields (xs : List (Mat × Mat)) (s : Stat) :
    (∀ i, (s.addAll xs).p_ i = s.p_ i + (xs.map (precisionTerm i)).sum) ∧
    (∀ i, (s.addAll xs).r_ i = s.r_ i + (xs.map (recallTerm i)).sum) ∧
    (s.addAll xs).sm_ = s.sm_ + xs.length := by
  induction xs generalizing s with
  | nil => simp [Stat.addAll]
  | cons x xs ih =>
    obtain ⟨hp, hr, hsm⟩ := ih (s.add x.1 x.2)
    have hcons : s.addAll (x :: xs) = (s.add x.1 x.2).addAll xs := by
      unfold Stat.addAll
      rw [List.foldl_cons]
    rw [hcons]
    refine ⟨fun i => ?_, fun i => ?_, ?_⟩
    · rw [hp, Stat.add_p_, List.map_cons, List.sum_cons, precisionTerm, add_assoc]
    · rw [hr, Stat.add_r_, List.map_cons, List.sum_cons, recallTerm, add_assoc]
    · rw [hsm, Stat.add_sm_, List.length_cons]
      omega

theorem onePixel_inUnit : onePixel.inUnit := by
  intro j _ i _
  simp [onePixel]

theorem oneZero_inUnit : oneZero.inUnit := by
  intro j _ i _
  unfold oneZero
  dsimp only
  split <;> norm_num

theorem recallTerm_antitone (sal gt : Mat) (i k : Fin N_BINS) (h : i ≤ k) :
    (tpAt sal gt k : ℚ) / ((ngtOf sal gt : ℚ) + eps)
      ≤ (tpAt sal gt i : ℚ) / ((ngtOf sal gt : ℚ) + eps) := by
  have hpos : (0 : ℚ) < (ngtOf sal gt : ℚ) + eps := by
    have : (0 : ℚ) ≤ (ngtOf sal gt : ℚ) := by exact_mod_cast ngtOf_nonneg sal gt
    linarith [eps_pos]
  have hle : (tpAt sal gt k : ℚ) ≤ (tpAt sal gt i : ℚ) := by
    exact_mod_cast tpAt_antitone sal gt i k h
  exact div_le_div_of_nonneg_right hle (le_of_lt hpos)

theorem Stat.Reachable.r_antitone {s : Stat} (h : Stat.Reachable s) :
    ∀ i k : Fin N_BINS, i ≤ k → s.r_ k ≤ s.r_ i := by
  induction h with
  | fresh => intro i k _; exact le_rfl
  | add s sal gt _ _ ih =>
    intro i k hik
    rw [Stat.add_r_, Stat.add_r_]
    exact add_le_add (ih i k hik) (recallTerm_antitone sal gt i k hik)
  | merge a b _ _ iha ihb =>
    intro i k hik
    rw [Stat.merge_r_, Stat.merge_r_]
    exact add_le_add (iha i k hik) (ihb i k hik)

theorem oneZero_coords : oneZero.coords = [(0, 0), (0, 1)] := by decide

theorem zeroPixel_coords : zeroPixel.coords = [(0, 0)] := by decide

theorem oneZero_counts :
    tpAt oneZero oneZero ⟨0, by decide⟩ = 1 ∧ predAt oneZero ⟨0, by decide⟩ = 2
      ∧ tpAt oneZero oneZero ⟨1, by decide⟩ = 1 ∧ predAt oneZero ⟨1, by decide⟩ = 1 := by
  have h00 : oneZero.px 0 0 = 1 := rfl
  have h01 : oneZero.px 0 1 = 0 := rfl
  have hf0 : fg oneZero 0 0 = 1 := by rw [fg, h00]; norm_num
  have hf1 : fg oneZero 0 1 = 0 := by rw [fg, h01]; norm_num
  simp only [tpAt, predAt, oneZero_coords, List.map_cons, List.map_nil, List.sum_cons,
    List.sum_nil, h00, h01, hf0, hf1, binOf_one, binOf_zero, inFrom]
  decide

theorem tpAt_succ (sal gt : Mat) (i : Nat) (hi : i + 1 < N_BINS) :
    tpAt sal gt ⟨i, Nat.lt_of_succ_lt hi⟩ = tpAt sal gt ⟨i + 1, hi⟩
      + hist0 sal gt ⟨i, Nat.lt_of_succ_lt hi⟩ := by
  unfold tpAt hist0
  rw [← List.sum_map_add]
  congr 1
  apply List.map_congr_left
  intro ji _
  simp only [binIx_eq_some_iff, inFrom]
  generalize binOf (sal.px ji.1 ji.2) = s
  generalize fg gt ji.1 ji.2 = g
  have hN : ((N_BINS : Nat) : Int) = 256 := rfl
  by_cases h1 : s = (i : Int)
  · have h2 : ((i : Nat) : Int) ≤ s ∧ s < (N_BINS : Int) := by omega
    have h3 : ¬ (((i + 1 : Nat) : Int) ≤ s ∧ s < (N_BINS : Int)) := by omega
    rw [if_pos h2, if_neg h3, if_pos h1, zero_add]
  · by_cases h2 : ((i : Nat) : Int) ≤ s ∧ s < (N_BINS : Int)
    · have h3 : ((i + 1 : Nat) : Int) ≤ s ∧ s < (N_BINS : Int) := by omega
      rw [if_pos h2, if_pos h3, if_neg h1, add_zero]
    · have h3 : ¬ (((i + 1 : Nat) : Int) ≤ s ∧ s < (N_BINS : Int)) := by omega
      rw [if_neg h2, if_neg h3, if_neg h1, add_zero]

theorem predAt_succ (sal : Mat) (i : Nat) (hi : i + 1 < N_BINS) :
    predAt sal ⟨i, Nat.lt_of_succ_lt hi⟩ = predAt sal ⟨i + 1, hi⟩
      + hist1 sal ⟨i, Nat.lt_of_succ_lt hi⟩ := by
  unfold predAt hist1
  rw [← List.sum_map_add]
  congr 1
  apply List.map_congr_left
  intro ji _
  simp only [binIx_eq_some_iff, inFrom]
  generalize binOf (sal.px ji.1 ji.2) = s
  have hN : ((N_BINS : Nat) : Int) = 256 := rfl
  by_cases h1 : s = (i : Int)
  · have h2 : ((i : Nat) : Int) ≤ s ∧ s < (N_BINS : Int) := by omega
    have h3 : ¬ (((i + 1 : Nat) : Int) ≤ s ∧ s < (N_BINS : Int)) := by omega
    rw [if_pos h2, if_neg h3, if_pos h1, zero_add]
  · by_cases h2 : ((i : Nat) : Int) ≤ s ∧ s < (N_BINS : Int)
    · have h3 : ((i + 1 : Nat) : Int) ≤ s ∧ s < (N_BINS : Int) := by omega
      rw [if_pos h2, if_pos h3, if_neg h1, add_zero]
    · have h3 : ¬ (((i + 1 : Nat) : Int) ≤ s ∧ s < (N_BINS : Int)) := by omega
      rw [if_neg h2, if_neg h3, if_neg h1, add_zero]

theorem hist1_nonneg (sal : Mat) (k : Fin N_BINS) : 0 ≤ hist1 sal k := by
  unfold hist1
  apply List.sum_nonneg
  intro x hx
  rw [List.mem_map] at hx
  obtain ⟨ji, -, rfl⟩ := hx
  split <;> decide

theorem zeroPixel_inUnit : zeroPixel.inUnit := by
  intro j _ i _
  simp [zeroPixel]

theorem Stat.recall_fresh_add (sal gt : Mat) (i : Fin N_BINS) :
    (Stat.fresh.add sal gt).recall i
      = Dbl.num ((tpAt sal gt i : ℚ) / ((ngtOf sal gt : ℚ) + eps)) := by
  unfold Stat.recall
  rw [Stat.add_r_, Stat.add_sm_]
  simp [Stat.fresh, Dbl.div]

theorem ngtOf_pos (sal gt : Mat)
    (hfg : ∃ j, j < sal.rows ∧ ∃ i, i < sal.cols ∧ 1 / 2 < gt.px j i) :
    1 ≤ ngtOf sal gt := by
  obtain ⟨j, hj, i, hi, hgt⟩ := hfg
  unfold ngtOf
  have hmem : fg gt j i ∈ sal.coords.map fun ji => fg gt ji.1 ji.2 :=
    List.mem_map.2 ⟨(j, i), (Mat.mem_coords sal (j, i)).2 ⟨hj, hi⟩, rfl⟩
  have hnn : ∀ x ∈ sal.coords.map (fun ji => fg gt ji.1 ji.2), 0 ≤ x := by
    intro x hx
    rw [List.mem_map] at hx
    obtain ⟨ji, -, rfl⟩ := hx
    exact fg_nonneg _ _ _
  have h1 : fg gt j i = 1 := by rw [fg, if_pos hgt]
  have := List.single_le_sum hnn _ hmem
  omega

theorem onePixel_fg : ∃ j, j < onePixel.rows ∧ ∃ i, i < onePixel.cols ∧ 1 / 2 < onePixel.px j i :=
  ⟨0, by decide, 0, by decide, by norm_num [onePixel]⟩

/-! ## The evaluator -/

theorem Mask.sum_gtMask_num (m : Mat) (t : ℚ) :
    (m.gtMask (.num t)).sum = 255 * (m.countAbove t : ℚ) := by
  unfold Mask.sum Mat.gtMask Mat.countAbove Mat.coords
  simp only
  generalize ((List.range m.rows).flatMap fun j => (List.range m.cols).map fun i => (j, i)) = L
  induction L with
  | nil => simp
  | cons a L ih =>
    rw [List.map_cons, List.sum_cons, ih, List.countP_cons]
    by_cases h : t < m.px a.1 a.2
    · simp [h]; ring
    · simp [h]

theorem Mask.sum_gtMask_nan (m : Mat) : (m.gtMask .nan).sum = 0 := by
  unfold Mask.sum Mat.gtMask
  simp

theorem Mat.countAbove_pos_iff (m : Mat) (t : ℚ) :
    0 < m.countAbove t ↔ ∃ j, j < m.rows ∧ ∃ i, i < m.cols ∧ t < m.px j i := by
  unfold Mat.countAbove
  rw [List.countP_pos_iff]
  constructor
  · rintro ⟨ji, hji, h⟩
    rw [Mat.mem_coords] at hji
    exact ⟨ji.1, hji.1, ji.2, hji.2, by simpa using h⟩
  · rintro ⟨j, hj, i, hi, h⟩
    exact ⟨(j, i), (Mat.mem_coords m (j, i)).2 ⟨hj, hi⟩, by simpa using h⟩

theorem Mask.sum_gtMask_eq_zero_iff (m : Mat) (t : ℚ) :
    (m.gtMask (.num t)).sum = 0 ↔ m.countAbove t = 0 := by
  rw [Mask.sum_gtMask_num]
  constructor
  · intro h
    have : (m.countAbove t : ℚ) = 0 := by linarith
    exact_mod_cast this
  · intro h
    rw [h]; simp

/-- The loop exits after exactly `k` shrink steps. -/
theorem Evaluator.shrink_steps (sal : Mat) (k : Nat) :
    ∀ (t : ℚ) (fuel : Nat), k < fuel →
      (∀ k', k' < k → sal.countAbove (t / (6 / 5) ^ k') = 0) →
      0 < sal.countAbove (t / (6 / 5) ^ k) →
      Evaluator.shrink sal fuel (.num t) = some (.num (t / (6 / 5) ^ k)) := by
  induction k with
  | zero =>
    intro t fuel hf _ hpos
    obtain ⟨n, rfl⟩ : ∃ n, fuel = n + 1 := ⟨fuel - 1, by omega⟩
    have hne : ¬ (sal.gtMask (.num t)).sum = 0 := by
      rw [Mask.sum_gtMask_eq_zero_iff]
      simp only [pow_zero, div_one] at hpos
      omega
    simp [Evaluator.shrink, hne]
  | succ k ih =>
    intro t fuel hf hzero hpos
    obtain ⟨n, rfl⟩ : ∃ n, fuel = n + 1 := ⟨fuel - 1, by omega⟩
    have h0 : (sal.gtMask (.num t)).sum = 0 := by
      rw [Mask.sum_gtMask_eq_zero_iff]
      simpa using hzero 0 (Nat.succ_pos k)
    have hstep : ∀ j : Nat, t / (6 / 5) / (6 / 5) ^ j = t / (6 / 5) ^ (j + 1) := by
      intro j
      rw [pow_succ]
      field_simp
      ring
    have := ih (t / (6 / 5)) n (by omega)
      (fun k' hk' => by rw [hstep]; exact hzero (k' + 1) (by omega))
      (by rw [hstep]; exact hpos)
    rw [Evaluator.shrink, if_pos h0]
    have hd : Dbl.div (.num t) (.num (6 / 5)) = .num (t / (6 / 5)) := by
      simp [Dbl.div]
    rw [hd, this, hstep]

/-- Some power of `1.2` brings the threshold below a positive pixel. -/
theorem exists_shrink_below (t m : ℚ) (hm : 0 < m) : ∃ k : Nat, t / (6 / 5) ^ k < m := by
  by_cases ht : t ≤ 0
  · exact ⟨0, by simpa using lt_of_le_of_lt ht hm⟩
  · have ht : 0 < t := lt_of_not_le ht
    obtain ⟨k, hk⟩ := exists_pow_lt_of_lt_one (div_pos hm ht)
      (show (5 / 6 : ℚ) < 1 by norm_num)
    refine ⟨k, ?_⟩
    have h65 : (0 : ℚ) < (6 / 5) ^ k := by positivity
    have e : (5 / 6 : ℚ) ^ k = 1 / (6 / 5) ^ k := by
      rw [one_div, ← inv_pow]
      norm_num
    rw [e, div_lt_div_iff₀ h65 ht] at hk
    rw [div_lt_iff₀ h65]
    linarith

theorem Evaluator.adaptiveStart_num (sal : Mat) (hr : 0 < sal.rows) (hc : 0 < sal.cols) :
    Evaluator.adaptiveStart sal
      = .num (2 * sal.sum / ((sal.cols * sal.rows : Nat) : ℚ)) := by
  have : ((sal.cols * sal.rows : Nat) : ℚ) ≠ 0 := by
    have : 0 < sal.cols * sal.rows := Nat.mul_pos hc hr
    exact_mod_cast this.ne'
  simp only [Evaluator.adaptiveStart, Dbl.div, if_neg this]

/-- From a start `t`, with a positive pixel in the map, the loop exits at the first
threshold of the sequence `t, t/1.2, t/1.2^2, ...` that some pixel exceeds. -/
theorem Evaluator.shrink_terminates (sal : Mat) (t : ℚ)
    (hpos : ∃ j, j < sal.rows ∧ ∃ i, i < sal.cols ∧ 0 < sal.px j i) :
    ∃ k : Nat, (∀ fuel, k < fuel →
        Evaluator.shrink sal fuel (.num t) = some (.num (t / (6 / 5) ^ k)))
      ∧ 0 < sal.countAbove (t / (6 / 5) ^ k)
      ∧ ∀ k', k' < k → sal.countAbove (t / (6 / 5) ^ k') = 0 := by
  classical
  obtain ⟨j, hj, i, hi, hm⟩ := hpos
  have hex : ∃ k : Nat, 0 < sal.countAbove (t / (6 / 5) ^ k) := by
    obtain ⟨k, hk⟩ := exists_shrink_below t (sal.px j i) hm
    exact ⟨k, (Mat.countAbove_pos_iff sal _).2 ⟨j, hj, i, hi, hk⟩⟩
  refine ⟨Nat.find hex, ?_, Nat.find_spec hex, ?_⟩
  · intro fuel hf
    exact Evaluator.shrink_steps sal _ t fuel hf
      (fun k' hk' => by have := Nat.find_min hex hk'; omega) (Nat.find_spec hex)
  · intro k' hk'
    have := Nat.find_min hex hk'
    omega

theorem topRow_inUnit : topRow.inUnit := by
  intro j _ i _
  unfold topRow
  dsimp only
  split <;> norm_num

theorem topRow_pos : ∃ j, j < topRow.rows ∧ ∃ i, i < topRow.cols ∧ 0 < topRow.px j i :=
  ⟨0, by decide, 0, by decide, by norm_num [topRow]⟩

theorem Evaluator.shrink_zeroPixel (fuel : Nat) :
    Evaluator.shrink zeroPixel fuel (.num 0) = none := by
  induction fuel with
  | zero => rfl
  | succ n ih =>
    have h0 : (zeroPixel.gtMask (.num 0)).sum = 0 := by
      rw [Mask.sum_gtMask_eq_zero_iff]
      by_contra hne
      have hpos : 0 < zeroPixel.countAbove 0 := Nat.pos_of_ne_zero hne
      rw [Mat.countAbove_pos_iff] at hpos
      obtain ⟨j, -, i, -, h⟩ := hpos
      simp [zeroPixel] at h
    have hd : Dbl.div (.num 0) (.num (6 / 5)) = .num 0 := by
      simp [Dbl.div]
    rw [Evaluator.shrink, if_pos h0, hd, ih]

theorem zeroPixel_sum : zeroPixel.sum = 0 := by
  rw [Mat.sum, zeroPixel_coords]
  simp [zeroPixel]

theorem Evaluator.adaptiveStart_zeroPixel : Evaluator.adaptiveStart zeroPixel = .num 0 := by
  rw [Evaluator.adaptiveStart_num zeroPixel (by decide) (by decide), zeroPixel_sum]
  simp

theorem sum_map_nonneg_eq_zero_iff {α : Type} (L : List α) (f : α → ℚ)
    (h : ∀ x ∈ L, 0 ≤ f x) : (L.map f).sum = 0 ↔ ∀ x ∈ L, f x = 0 := by
  induction L with
  | nil => simp
  | cons a L ih =>
    have ha : 0 ≤ f a := h a (List.mem_cons_self a L)
    have hL : ∀ x ∈ L, 0 ≤ f x := fun x hx => h x (List.mem_cons_of_mem a hx)
    have hs : 0 ≤ (L.map f).sum := by
      apply List.sum_nonneg
      intro y hy
      rw [List.mem_map] at hy
      obtain ⟨x, hx, rfl⟩ := hy
      exact hL x hx
    rw [List.map_cons, List.sum_cons, List.forall_mem_cons, ← ih hL]
    constructor
    · intro h0
      constructor <;> linarith
    · rintro ⟨h1, h2⟩
      rw [h1, h2, add_zero]

theorem Mat.sum_absDiff (a b : Mat) :
    (a.absDiff b).sum = (a.coords.map fun ji => |a.px ji.1 ji.2 - b.px ji.1 ji.2|).sum := rfl

theorem Mat.sum_absDiff_nonneg (a b : Mat) : 0 ≤ (a.absDiff b).sum := by
  rw [Mat.sum_absDiff]
  apply List.sum_nonneg
  intro y hy
  rw [List.mem_map] at hy
  obtain ⟨x, -, rfl⟩ := hy
  exact abs_nonneg _

theorem Mat.sum_absDiff_eq_zero_iff (a b : Mat) : (a.absDiff b).sum = 0 ↔ a.pixelEq b := by
  rw [Mat.sum_absDiff, sum_map_nonneg_eq_zero_iff _ _ (fun _ _ => abs_nonneg _)]
  constructor
  · intro h j hj i hi
    have := h (j, i) ((Mat.mem_coords a (j, i)).2 ⟨hj, hi⟩)
    exact sub_eq_zero.1 (abs_eq_zero.1 this)
  · intro h ji hji
    rw [Mat.mem_coords] at hji
    rw [h ji.1 hji.1 ji.2 hji.2, sub_self, abs_zero]

theorem Mat.sum_absDiff_comm (a b : Mat) (hd : a.sameDims b) :
    (a.absDiff b).sum = (b.absDiff a).sum := by
  rw [Mat.sum_absDiff, Mat.sum_absDiff]
  have hc : b.coords = a.coords := by
    unfold Mat.coords
    rw [hd.1, hd.2]
  rw [hc]
  congr 1
  apply List.map_congr_left
  intro ji _
  exact abs_sub_comm _ _

theorem emptyMat_coords : emptyMat.coords = [] := by decide

theorem Mask.sum_congr (a b : Mask) (hr : a.rows = b.rows) (hc : a.cols = b.cols)
    (h : ∀ j, j < a.rows → ∀ i, i < a.cols → a.px j i = b.px j i) : a.sum = b.sum := by
  unfold Mask.sum
  rw [← hr, ← hc]
  congr 1
  apply List.map_congr_left
  intro ji hji
  have hm : ji.1 < a.rows ∧ ji.2 < a.cols := by
    obtain ⟨j, i⟩ := ji
    simp only [List.mem_flatMap, List.mem_map, List.mem_range, Prod.mk.injEq] at hji
    obtain ⟨x, hx, y, hy, rfl, rfl⟩ := hji
    exact ⟨hx, hy⟩
  rw [h ji.1 hm.1 ji.2 hm.2]

theorem Dbl.div_self_num (s : ℚ) (hs : s ≠ 0) : Dbl.div (.num s) (.num s) = .num 1 := by
  simp [Dbl.div, hs]

theorem perfectF_eq : perfectF = 13000000000 / 13000000001 := by
  norm_num [perfectF, F_BETA2, eps]

theorem Dbl.fmeasure_one :
    Dbl.div (Dbl.mul (Dbl.mul (.num (1 + F_BETA2)) (.num 1)) (.num 1))
      (Dbl.add (Dbl.add (Dbl.mul (.num F_BETA2) (.num 1)) (.num 1)) (.num eps))
      = .num perfectF := by
  have h : F_BETA2 * 1 + 1 + eps ≠ 0 := by norm_num [F_BETA2, eps]
  simp only [Dbl.mul, Dbl.add, Dbl.div, if_neg h, perfectF]

/-- The per-image numbers of a score map equal to its binary ground truth, once the
threshold loop has left at a positive threshold that some pixel exceeds. -/
theorem Evaluator.scores_of_exit (fuel : Nat) (sal gt : Mat) (T : ℚ)
    (hbin : gt.isBinary) (hd : sal.sameDims gt) (heq : sal.pixelEq gt)
    (hexit : Evaluator.shrink sal fuel (Evaluator.adaptiveStart sal) = some (.num T))
    (hT : 0 < T) (hcount : 0 < sal.countAbove T) :
    Evaluator.scores fuel sal gt
      = some { e := .num 0, T := .num T, p := .num 1, r := .num 1, f := .num perfectF } := by
  obtain ⟨j0, hj0, i0, hi0, hpx⟩ := (Mat.countAbove_pos_iff sal T).1 hcount
  have hr : 0 < sal.rows := by omega
  have hc : 0 < sal.cols := by omega
  have hT1 : T < 1 := by
    rw [heq j0 hj0 i0 hi0] at hpx
    rcases hbin j0 (hd.1 ▸ hj0) i0 (hd.2 ▸ hi0) with h | h
    · rw [h] at hpx; linarith
    · rw [h] at hpx; exact hpx
  have hiff : ∀ j, j < sal.rows → ∀ i, i < sal.cols →
      (sal.gtMask (.num T)).px j i = (gt.gtMask (.num (1 / 2))).px j i
        ∧ (sal.gtMask (.num T)).px j i = 0 ∨
      (sal.gtMask (.num T)).px j i = (gt.gtMask (.num (1 / 2))).px j i
        ∧ (sal.gtMask (.num T)).px j i = 255 := by
    intro j hj i hi
    simp only [Mat.gtMask]
    rw [heq j hj i hi]
    rcases hbin j (hd.1 ▸ hj) i (hd.2 ▸ hi) with h | h
    · left
      rw [h]
      have h1 : ¬ T < 0 := not_lt.2 hT.le
      have h2 : ¬ (1 / 2 : ℚ) < 0 := by norm_num
      rw [if_neg h1, if_neg h2]
      exact ⟨rfl, rfl⟩
    · right
      rw [h]
      have h2 : (1 / 2 : ℚ) < 1 := by norm_num
      rw [if_pos hT1, if_pos h2]
      exact ⟨rfl, rfl⟩
  have hB : (gt.gtMask (.num (1 / 2))).sum = (sal.gtMask (.num T)).sum := by
    apply Mask.sum_congr
    · exact hd.1.symm
    · exact hd.2.symm
    · intro j hj i hi
      have hj' : j < sal.rows := by
        have : (gt.gtMask (.num (1 / 2))).rows = gt.rows := rfl
        rw [this, ← hd.1] at hj; exact hj
      have hi' : i < sal.cols := by
        have : (gt.gtMask (.num (1 / 2))).cols = gt.cols := rfl
        rw [this, ← hd.2] at hi; exact hi
      rcases hiff j hj' i hi' with h | h
      · exact h.1.symm
      · exact h.1.symm
  have hAB : ((sal.gtMask (.num T)).and (gt.gtMask (.num (1 / 2)))).sum
      = (sal.gtMask (.num T)).sum := by
    apply Mask.sum_congr
    · rfl
    · rfl
    · intro j hj i hi
      simp only [Mask.and]
      rcases hiff j hj i hi with h | h
      · rw [← h.1, h.2]; rfl
      · rw [← h.1, h.2]; rfl
  have hS : (sal.gtMask (.num T)).sum ≠ 0 := by
    rw [Ne, Mask.sum_gtMask_eq_zero_iff]
    omega
  have hmae : Evaluator.mae sal gt = .num 0 := by
    have hne : ((sal.cols * sal.rows : Nat) : ℚ) ≠ 0 := by
      have : 0 < sal.cols * sal.rows := Nat.mul_pos hc hr
      exact_mod_cast this.ne'
    have h0 : (sal.absDiff gt).sum = 0 := (Mat.sum_absDiff_eq_zero_iff sal gt).2 heq
    simp only [Evaluator.mae, Dbl.div, if_neg hne, h0, zero_div]
  simp only [Evaluator.scores, hexit, hAB, hB, Dbl.div_self_num _ hS, hmae, Dbl.fmeasure_one]

theorem Mat.sum_pos_of_binary (m : Mat) (hbin : m.isBinary)
    (hfg : ∃ j, j < m.rows ∧ ∃ i, i < m.cols ∧ m.px j i = 1) : 0 < m.sum := by
  obtain ⟨j, hj, i, hi, h1⟩ := hfg
  have hnn : ∀ x ∈ m.coords.map (fun ji => m.px ji.1 ji.2), 0 ≤ x := by
    intro x hx
    rw [List.mem_map] at hx
    obtain ⟨ji, hji, rfl⟩ := hx
    rw [Mat.mem_coords] at hji
    rcases hbin ji.1 hji.1 ji.2 hji.2 with h | h <;> simp [h]
  have hmem : m.px j i ∈ m.coords.map fun ji => m.px ji.1 ji.2 :=
    List.mem_map.2 ⟨(j, i), (Mat.mem_coords m (j, i)).2 ⟨hj, hi⟩, rfl⟩
  have := List.single_le_sum hnn _ hmem
  rw [h1] at this
  unfold Mat.sum
  linarith

theorem topRow_isBinary : topRow.isBinary := by
  intro j _ i _
  unfold topRow
  dsimp only
  split
  · exact Or.inr rfl
  · exact Or.inl rfl

theorem topRow_fg : ∃ j, j < topRow.rows ∧ ∃ i, i < topRow.cols ∧ topRow.px j i = 1 :=
  ⟨0, by decide, 0, by decide, by simp [topRow]⟩

theorem topRow_coords : topRow.coords = [(0, 0), (0, 1), (1, 0), (1, 1)] := by decide

theorem topRow_start : Evaluator.adaptiveStart topRow = .num 1 := by
  rw [Evaluator.adaptiveStart_num topRow (by decide) (by decide), Mat.sum, topRow_coords]
  norm_num [topRow]

theorem topRow_exit (fuel : Nat) (hf : 2 ≤ fuel) :
    Evaluator.shrink topRow fuel (Evaluator.adaptiveStart topRow) = some (.num (5 / 6)) := by
  rw [topRow_start]
  have h0 : ∀ k', k' < 1 → topRow.countAbove (1 / (6 / 5) ^ k') = 0 := by
    intro k' hk'
    obtain rfl : k' = 0 := by omega
    by_contra hne
    have hpos := Nat.pos_of_ne_zero hne
    rw [Mat.countAbove_pos_iff] at hpos
    obtain ⟨j, -, i, -, h⟩ := hpos
    have hle : topRow.px j i ≤ 1 := by
      unfold topRow
      dsimp only
      split <;> norm_num
    norm_num at h
    linarith
  have h1 : 0 < topRow.countAbove (1 / (6 / 5) ^ 1) := by
    rw [Mat.countAbove_pos_iff]
    exact ⟨0, by decide, 0, by decide, by norm_num [topRow]⟩
  have := Evaluator.shrink_steps topRow 1 1 fuel (by omega) h0 h1
  rw [this]
  norm_num

theorem topRow_count : 0 < topRow.countAbove (5 / 6) := by
  rw [Mat.countAbove_pos_iff]
  exact ⟨0, by decide, 0, by decide, by norm_num [topRow]⟩

theorem topRow_scores (fuel : Nat) (hf : 2 ≤ fuel) :
    Evaluator.scores fuel topRow topRow
      = some { e := .num 0, T := .num (5 / 6), p := .num 1, r := .num 1,
               f := .num perfectF } :=
  Evaluator.scores_of_exit fuel topRow topRow (5 / 6) topRow_isBinary ⟨rfl, rfl⟩
    (fun _ _ _ _ => rfl) (topRow_exit fuel hf) (by norm_num) topRow_count

theorem topRow_scores_none (fuel : Nat) (hf : fuel < 2) :
    Evaluator.scores fuel topRow topRow = none := by
  have h0 : (topRow.gtMask (.num 1)).sum = 0 := by
    rw [Mask.sum_gtMask_eq_zero_iff]
    by_contra hne
    have hpos := Nat.pos_of_ne_zero hne
    rw [Mat.countAbove_pos_iff] at hpos
    obtain ⟨j, -, i, -, h⟩ := hpos
    have hle : topRow.px j i ≤ 1 := by
      unfold topRow
      dsimp only
      split <;> norm_num
    linarith
  have hs : Evaluator.shrink topRow fuel (.num 1) = none := by
    rcases fuel with _ | _ | n
    · rfl
    · rw [Evaluator.shrink, if_pos h0]
      rfl
    · omega
  simp only [Evaluator.scores, topRow_start, hs]

/-! ## Aggregation, catalog and counts -/

theorem Mask.sum_eq_zero (a : Mask)
    (h : ∀ j, j < a.rows → ∀ i, i < a.cols → a.px j i = 0) : a.sum = 0 := by
  unfold Mask.sum
  apply List.sum_eq_zero
  intro x hx
  rw [List.mem_map] at hx
  obtain ⟨ji, hji, rfl⟩ := hx
  obtain ⟨j, i⟩ := ji
  simp only [List.mem_flatMap, List.mem_map, List.mem_range, Prod.mk.injEq] at hji
  obtain ⟨x, hx, y, hy, rfl, rfl⟩ := hji
  simp only
  rw [h x hx y hy]
  simp

theorem Mat.coords_length (m : Mat) : m.coords.length = m.rows * m.cols := by
  unfold Mat.coords
  generalize m.rows = r
  induction r with
  | zero => simp
  | succ r ih =>
    rw [List.range_succ, List.flatMap_append, List.length_append, ih]
    simp [Nat.succ_mul]

theorem Dbl.fmeasure_zero :
    Dbl.div (Dbl.mul (Dbl.mul (.num (1 + F_BETA2)) (.num 0)) (.num 0))
      (Dbl.add (Dbl.add (Dbl.mul (.num F_BETA2) (.num 0)) (.num 0)) (.num eps))
      = .num 0 := by
  have h : F_BETA2 * 0 + 0 + eps ≠ 0 := by norm_num [eps]
  simp only [Dbl.mul, Dbl.add, Dbl.div, if_neg h]
  norm_num

/-- The per-image numbers of a score map that is the inverse `1 - gt` of its binary ground
truth, once the threshold loop has left at a positive threshold that some pixel exceeds. -/
theorem Evaluator.scores_of_exit_inverted (fuel : Nat) (sal gt : Mat) (T : ℚ)
    (hbin : gt.isBinary) (hd : sal.sameDims gt)
    (hinv : ∀ j, j < sal.rows → ∀ i, i < sal.cols → sal.px j i = 1 - gt.px j i)
    (hfg : ∃ j, j < gt.rows ∧ ∃ i, i < gt.cols ∧ gt.px j i = 1)
    (hexit : Evaluator.shrink sal fuel (Evaluator.adaptiveStart sal) = some (.num T))
    (hT : 0 < T) (hcount : 0 < sal.countAbove T) :
    Evaluator.scores fuel sal gt
      = some { e := .num 1, T := .num T, p := .num 0, r := .num 0, f := .num 0 } := by
  obtain ⟨j0, hj0, i0, hi0, hpx⟩ := (Mat.countAbove_pos_iff sal T).1 hcount
  have hr : 0 < sal.rows := by omega
  have hc : 0 < sal.cols := by omega
  have hand : ((sal.gtMask (.num T)).and (gt.gtMask (.num (1 / 2)))).sum = 0 := by
    apply Mask.sum_eq_zero
    intro j hj i hi
    have hj' : j < sal.rows := hj
    have hi' : i < sal.cols := hi
    simp only [Mask.and, Mat.gtMask]
    rw [hinv j hj' i hi']
    rcases hbin j (hd.1 ▸ hj') i (hd.2 ▸ hi') with h | h
    · rw [h]
      have h2 : ¬ (1 / 2 : ℚ) < 0 := by norm_num
      rw [if_neg h2]
      exact Nat.and_zero _
    · rw [h]
      have h1 : ¬ T < 1 - 1 := by rw [sub_self]; exact not_lt.2 hT.le
      rw [if_neg h1]
      exact Nat.zero_and _
  have hS : (sal.gtMask (.num T)).sum ≠ 0 := by
    rw [Ne, Mask.sum_gtMask_eq_zero_iff]
    omega
  have hG : (gt.gtMask (.num (1 / 2))).sum ≠ 0 := by
    rw [Ne, Mask.sum_gtMask_eq_zero_iff]
    obtain ⟨j, hj, i, hi, h1⟩ := hfg
    have : 0 < gt.countAbove (1 / 2) :=
      (Mat.countAbove_pos_iff gt _).2 ⟨j, hj, i, hi, by rw [h1]; norm_num⟩
    omega
  have hne : ((sal.cols * sal.rows : Nat) : ℚ) ≠ 0 := by
    have : 0 < sal.cols * sal.rows := Nat.mul_pos hc hr
    exact_mod_cast this.ne'
  have hsum : (sal.absDiff gt).sum = ((sal.cols * sal.rows : Nat) : ℚ) := by
    rw [Mat.sum_absDiff]
    have : sal.coords.map (fun ji => |sal.px ji.1 ji.2 - gt.px ji.1 ji.2|)
        = sal.coords.map (fun _ => (1 : ℚ)) := by
      apply List.map_congr_left
      intro ji hji
      rw [Mat.mem_coords] at hji
      rw [hinv ji.1 hji.1 ji.2 hji.2]
      rcases hbin ji.1 (hd.1 ▸ hji.1) ji.2 (hd.2 ▸ hji.2) with h | h <;> rw [h] <;> norm_num
    rw [this, List.map_const', List.sum_replicate, Mat.coords_length, Nat.mul_comm]
    simp
  have hmae : Evaluator.mae sal gt = .num 1 := by
    simp only [Evaluator.mae, Dbl.div, if_neg hne, hsum, div_self hne]
  have hp : Dbl.div (.num 0) (.num (sal.gtMask (.num T)).sum) = .num 0 := by
    simp only [Dbl.div, if_neg hS, zero_div]
  have hrr : Dbl.div (.num 0) (.num (gt.gtMask (.num (1 / 2))).sum) = .num 0 := by
    simp only [Dbl.div, if_neg hG, zero_div]
  simp only [Evaluator.scores, hexit, hand, hp, hrr, hmae, Dbl.fmeasure_zero]

theorem topRow_bg : ∃ j, j < topRow.rows ∧ ∃ i, i < topRow.cols ∧ topRow.px j i = 0 :=
  ⟨1, by decide, 0, by decide, by simp [topRow]⟩

theorem bottomRow_inverts :
    ∀ j, j < bottomRow.rows → ∀ i, i < bottomRow.cols → bottomRow.px j i = 1 - topRow.px j i := by
  intro j _ i _
  unfold bottomRow topRow
  dsimp only
  split <;> norm_num

theorem Dbl.addAssoc (a b c : Dbl) :
    Dbl.add (Dbl.add a b) c = Dbl.add a (Dbl.add b c) := by
  cases a <;> cases b <;> cases c <;> simp [Dbl.add, Rat.add_assoc]

theorem Dbl.zeroAdd (a : Dbl) : Dbl.add (.num 0) a = a := by
  cases a <;> simp [Dbl.add]

theorem Dbl.foldl_add (l : List Dbl) (a : Dbl) :
    l.foldl Dbl.add a = Dbl.add a (Dbl.sum l) := by
  induction l generalizing a with
  | nil => cases a <;> simp [Dbl.sum, Dbl.add]
  | cons x l ih =>
    rw [List.foldl_cons, ih, Dbl.addAssoc]
    rfl

theorem Dbl.sum_append (l1 l2 : List Dbl) :
    Dbl.sum (l1 ++ l2) = Dbl.add (Dbl.sum l1) (Dbl.sum l2) := by
  induction l1 with
  | nil => rw [List.nil_append]; exact (Dbl.zeroAdd _).symm
  | cons x l ih =>
    have h1 : Dbl.sum (x :: l ++ l2) = Dbl.add x (Dbl.sum (l ++ l2)) := rfl
    have h2 : Dbl.sum (x :: l) = Dbl.add x (Dbl.sum l) := rfl
    rw [h1, h2, ih, Dbl.addAssoc]

theorem Evaluator.evalRange_cons (fuel : Nat) (ev : Evaluator) (x : Mat × Mat)
    (xs : List (Mat × Mat)) :
    Evaluator.evalRange fuel ev (x :: xs)
      = (Evaluator.evaluate fuel ev x.1 x.2).bind fun e => Evaluator.evalRange fuel e xs := by
  unfold Evaluator.evalRange
  rw [List.foldlM_cons]
  rfl

/-- The loop over a range on which every step returns adds the per-image numbers to the
sums and folds the images into the `Stat`. -/
theorem Evaluator.evalRange_eq (fuel : Nat) (xs : List (Mat × Mat)) (ev : Evaluator)
    (hdef : ∀ x ∈ xs, ∃ sc, Evaluator.scores fuel x.1 x.2 = some sc) :
    Evaluator.evalRange fuel ev xs
      = some { mae_ := Dbl.add ev.mae_ (Dbl.sum (xs.map (Evaluator.scoreOf fuel Scores.e)))
               p_ := Dbl.add ev.p_ (Dbl.sum (xs.map (Evaluator.scoreOf fuel Scores.p)))
               r_ := Dbl.add ev.r_ (Dbl.sum (xs.map (Evaluator.scoreOf fuel Scores.r)))
               f_ := Dbl.add ev.f_ (Dbl.sum (xs.map (Evaluator.scoreOf fuel Scores.f)))
               cnt_ := Dbl.add ev.cnt_ (Dbl.sum (xs.map fun _ => Dbl.num 1))
               stat_ := ev.stat_.addAll xs } := by
  induction xs generalizing ev with
  | nil =>
    have hz : ∀ a : Dbl, Dbl.add a (.num 0) = a := by
      intro a; cases a <;> simp [Dbl.add]
    simp [Evaluator.evalRange, Dbl.sum, hz, Stat.addAll]
  | cons x xs ih =>
    obtain ⟨sc, hsc⟩ := hdef x (List.mem_cons_self x xs)
    have hev : Evaluator.evaluate fuel ev x.1 x.2
        = some { mae_ := Dbl.add ev.mae_ sc.e
                 p_ := Dbl.add ev.p_ sc.p
                 r_ := Dbl.add ev.r_ sc.r
                 f_ := Dbl.add ev.f_ sc.f
                 cnt_ := Dbl.add ev.cnt_ (.num 1)
                 stat_ := ev.stat_.add x.1 x.2 } := by
      simp only [Evaluator.evaluate, hsc]
    have hso : ∀ sel : Scores → Dbl, Evaluator.scoreOf fuel sel x = sel sc := by
      intro sel
      simp only [Evaluator.scoreOf, hsc]
    have hsum : ∀ (d : Dbl) (l : List Dbl), Dbl.sum (d :: l) = Dbl.add d (Dbl.sum l) :=
      fun _ _ => rfl
    have hadd : (ev.stat_.add x.1 x.2).addAll xs = ev.stat_.addAll (x :: xs) := by
      unfold Stat.addAll
      rw [List.foldl_cons]
    rw [Evaluator.evalRange_cons, hev, Option.some_bind,
      ih _ (fun y hy => hdef y (List.mem_cons_of_mem x hy))]
    simp only [List.map_cons, hsum, hso, Dbl.addAssoc, hadd]

theorem Stat.addAll_append (s : Stat) (xs ys : List (Mat × Mat)) :
    s.addAll (xs ++ ys) = (s.addAll xs).addAll ys := by
  unfold Stat.addAll
  rw [List.foldl_append]

theorem Evaluator.evalAll_of_range {fuel : Nat} {ev a : Evaluator} {data : List (Mat × Mat)}
    (h : Evaluator.evalRange fuel ev data = some a) :
    Evaluator.evalAll fuel ev data = some a.normalize := by
  simp only [Evaluator.evalAll, h]

theorem Evaluator.evalAllSplit_of_range {fuel k : Nat} {ev a b : Evaluator}
    {data : List (Mat × Mat)}
    (ha : Evaluator.evalRange fuel ev (data.take k) = some a)
    (hb : Evaluator.evalRange fuel ev.split (data.drop k) = some b) :
    Evaluator.evalAllSplit fuel ev k data = some (a.join b).normalize := by
  simp only [Evaluator.evalAllSplit, ha, hb]

theorem bottomRow_exit (fuel : Nat) (hf : 2 ≤ fuel) :
    Evaluator.shrink bottomRow fuel (Evaluator.adaptiveStart bottomRow)
      = some (.num (5 / 6)) := by
  have hc : bottomRow.coords = [(0, 0), (0, 1), (1, 0), (1, 1)] := by decide
  have hstart : Evaluator.adaptiveStart bottomRow = .num 1 := by
    rw [Evaluator.adaptiveStart_num bottomRow (by decide) (by decide), Mat.sum, hc]
    norm_num [bottomRow]
  rw [hstart]
  have h0 : ∀ k', k' < 1 → bottomRow.countAbove (1 / (6 / 5) ^ k') = 0 := by
    intro k' hk'
    obtain rfl : k' = 0 := by omega
    by_contra hne
    have hpos := Nat.pos_of_ne_zero hne
    rw [Mat.countAbove_pos_iff] at hpos
    obtain ⟨j, -, i, -, h⟩ := hpos
    have hle : bottomRow.px j i ≤ 1 := by
      unfold bottomRow
      dsimp only
      split <;> norm_num
    norm_num at h
    linarith
  have h1 : 0 < bottomRow.countAbove (1 / (6 / 5) ^ 1) := by
    rw [Mat.countAbove_pos_iff]
    exact ⟨1, by decide, 0, by decide, by norm_num [bottomRow]⟩
  have := Evaluator.shrink_steps bottomRow 1 1 fuel (by omega) h0 h1
  rw [this]
  norm_num

theorem bottomRow_scores (fuel : Nat) (hf : 2 ≤ fuel) :
    Evaluator.scores fuel bottomRow topRow
      = some { e := .num 1, T := .num (5 / 6), p := .num 0, r := .num 0, f := .num 0 } :=
  Evaluator.scores_of_exit_inverted fuel bottomRow topRow (5 / 6) topRow_isBinary ⟨rfl, rfl⟩
    bottomRow_inverts topRow_fg (bottomRow_exit fuel hf) (by norm_num)
    ((Mat.countAbove_pos_iff bottomRow _).2
      ⟨1, by decide, 0, by decide, by norm_num [bottomRow]⟩)

theorem twoImages_defined :
    ∀ x ∈ [(topRow, topRow), (bottomRow, topRow)],
      ∃ sc, Evaluator.scores 2 x.1 x.2 = some sc := by
  intro x hx
  simp only [List.mem_cons, List.mem_singleton, List.not_mem_nil, or_false] at hx
  rcases hx with rfl | rfl
  · exact ⟨_, topRow_scores 2 le_rfl⟩
  · exact ⟨_, bottomRow_scores 2 le_rfl⟩

theorem sum_replicate_map (f : Mat × Mat → ℚ) (x : Mat × Mat) (n : Nat) :
    ((List.replicate n x).map f).sum = (n : ℚ) * f x := by
  rw [List.map_replicate, List.sum_replicate, nsmul_eq_mul]

theorem Stat.merge_fresh_fresh : Stat.fresh.merge Stat.fresh = Stat.fresh := by
  rw [Stat.merge_eq]
  simp [Stat.fresh]

theorem isMaskName_iff (n : List Char) :
    isMaskName n ↔ (n.length > 3 ∧ n.drop (n.length - 3) = "bmp".toList) := by
  unfold isMaskName
  constructor
  · rintro ⟨h3, t, ht⟩
    refine ⟨h3, ?_⟩
    subst ht
    have : (t ++ "bmp".toList).length - 3 = t.length := by
      rw [List.length_append]
      rfl
    rw [this, List.drop_left]
  · rintro ⟨h3, hd⟩
    exact ⟨h3, ⟨n.take (n.length - 3), by rw [← hd, List.take_append_drop]⟩⟩

theorem Dataset.foldl_addEntry (entries : List (List Char)) (d : Dataset) :
    entries.foldl Dataset.addEntry d =
      { gt_ := d.gt_ ++ (entries.filter fun n => decide (isMaskName n)).map
            fun n => ground_truth_path ++ "/".toList ++ n
        im_ := d.im_ ++ (entries.filter fun n => decide (isMaskName n)).map
            fun n => dataset_path ++ "/".toList ++ (n.take (n.length - 3) ++ "jpg".toList)
        name_ := d.name_ ++ (entries.filter fun n => decide (isMaskName n)).map
            fun n => n.take (n.length - 4) } := by
  induction entries generalizing d with
  | nil => simp
  | cons n entries ih =>
    rw [List.foldl_cons, ih]
    by_cases h : isMaskName n
    · have h' := (isMaskName_iff n).1 h
      simp only [Dataset.addEntry, if_pos h', List.filter_cons, decide_eq_true_eq, if_pos h,
        List.map_cons, List.append_assoc, List.singleton_append]
    · have h' : ¬ (n.length > 3 ∧ n.drop (n.length - 3) = "bmp".toList) :=
        fun hc => h ((isMaskName_iff n).2 hc)
      simp only [Dataset.addEntry, if_neg h', List.filter_cons, decide_eq_true_eq, if_neg h]

theorem sum_indicator_eq_countP {α : Type} (L : List α) (p : α → Prop) [DecidablePred p] :
    (L.map fun x => if p x then (1 : Int) else 0).sum = (L.countP fun x => decide (p x) : Nat) := by
  induction L with
  | nil => simp
  | cons a L ih =>
    rw [List.map_cons, List.sum_cons, ih, List.countP_cons]
    by_cases h : p a <;> simp [h]
    omega

theorem binOf_eq_floor (v : ℚ) (h0 : 0 ≤ v) : binOf v = ⌊v * ((N_BINS : ℚ) - 1)⌋ := by
  have hnn : (0 : ℚ) ≤ v * ((N_BINS : ℚ) - 1) := by
    have : (0 : ℚ) ≤ (N_BINS : ℚ) - 1 := by norm_num [N_BINS]
    positivity
  rw [binOf, trunc, if_pos hnn]

theorem inFrom_binOf_iff (v : ℚ) (h0 : 0 ≤ v) (h1 : v ≤ 1) (i : Fin N_BINS) :
    inFrom i (binOf v) ↔ ((i : Nat) : Int) ≤ ⌊v * ((N_BINS : ℚ) - 1)⌋ := by
  obtain ⟨-, -, hhi⟩ := binOf_range v h0 h1
  rw [← binOf_eq_floor v h0]
  unfold inFrom
  have : ((N_BINS : Nat) : Int) = 256 := rfl
  constructor
  · exact fun h => h.1
  · exact fun h => ⟨h, by omega⟩

theorem predAt_eq_specP (sal : Mat) (hs : sal.inUnit) (i : Fin N_BINS) :
    predAt sal i = (specP sal i : Int) := by
  unfold predAt specP
  rw [← sum_indicator_eq_countP]
  congr 1
  apply List.map_congr_left
  intro ji hji
  rw [Mat.mem_coords] at hji
  obtain ⟨h0, h1⟩ := hs ji.1 hji.1 ji.2 hji.2
  simp only [inFrom_binOf_iff _ h0 h1]

theorem tpAt_eq_specTP (sal gt : Mat) (hs : sal.inUnit) (i : Fin N_BINS) :
    tpAt sal gt i = (specTP sal gt i : Int) := by
  unfold tpAt specTP
  rw [← sum_indicator_eq_countP]
  congr 1
  apply List.map_congr_left
  intro ji hji
  rw [Mat.mem_coords] at hji
  obtain ⟨h0, h1⟩ := hs ji.1 hji.1 ji.2 hji.2
  simp only [inFrom_binOf_iff _ h0 h1, fg]
  split_ifs with ha hb hc hc <;> first | rfl | (exfalso; tauto)

theorem ngtOf_eq_specG (sal gt : Mat) : ngtOf sal gt = (specG sal gt : Int) := by
  unfold ngtOf specG
  rw [← sum_indicator_eq_countP]
  rfl

theorem floor_ge_iff_threshold (v : ℚ) (i : Fin N_BINS) :
    ((i : Nat) : Int) ≤ ⌊v * ((N_BINS : ℚ) - 1)⌋ ↔ ((i : Nat) : ℚ) / ((N_BINS : ℚ) - 1) ≤ v := by
  have hpos : (0 : ℚ) < (N_BINS : ℚ) - 1 := by norm_num [N_BINS]
  rw [Int.le_floor, div_le_iff₀ hpos]
  simp

theorem specP_eq_passP (sal : Mat) (i : Fin N_BINS) :
    specP sal i = passP sal (((i : Nat) : ℚ) / ((N_BINS : ℚ) - 1)) := by
  unfold specP passP
  apply List.countP_congr
  intro ji _
  simp only [decide_eq_true_eq, floor_ge_iff_threshold]

theorem specTP_eq_passTP (sal gt : Mat) (i : Fin N_BINS) :
    specTP sal gt i = passTP sal gt (((i : Nat) : ℚ) / ((N_BINS : ℚ) - 1)) := by
  unfold specTP passTP
  apply List.countP_congr
  intro ji _
  simp only [decide_eq_true_eq, floor_ge_iff_threshold]

theorem countP_single {α : Type} (p : α → Bool) (a : α) (h : p a = true) :
    List.countP p [a] = 1 := by
  simp [List.countP_cons, h]

theorem lowPixel_inUnit : lowPixel.inUnit := by
  intro j _ i _
  norm_num [lowPixel]

theorem lowPixel_coords : lowPixel.coords = [(0, 0)] := by decide

theorem binOf_lowPixel : binOf (lowPixel.px 0 0) = 0 := by
  have hv : lowPixel.px 0 0 = 1 / 256 := rfl
  rw [hv, (binOf_range (1 / 256) (by norm_num) (by norm_num)).1, Int.floor_eq_iff]
  norm_num

theorem Evaluator.shrink_none (sal : Mat) (fuel : Nat) :
    ∀ t : ℚ, (∀ k', k' < fuel → sal.countAbove (t / (6 / 5) ^ k') = 0) →
      Evaluator.shrink sal fuel (.num t) = none := by
  induction fuel with
  | zero => intro t _; rfl
  | succ n ih =>
    intro t hz
    have h0 : (sal.gtMask (.num t)).sum = 0 := by
      rw [Mask.sum_gtMask_eq_zero_iff]
      simpa using hz 0 (Nat.succ_pos n)
    have hd : Dbl.div (.num t) (.num (6 / 5)) = .num (t / (6 / 5)) := by
      simp [Dbl.div]
    rw [Evaluator.shrink, if_pos h0, hd]
    apply ih
    intro k' hk'
    have := hz (k' + 1) (by omega)
    rw [pow_succ] at this
    have e : t / (6 / 5) / (6 / 5) ^ k' = t / ((6 / 5) ^ k' * (6 / 5)) := by
      field_simp
      ring
    rw [e]
    exact this

theorem Dbl.div_zero (a : Dbl) : Dbl.div a (.num 0) = .nan := by
  cases a <;> simp [Dbl.div]

/-- Without a foreground pixel in the ground truth, the recall division of `evaluate` has
the denominator zero, and recall and F-measure are undefined whenever the step returns. -/
theorem Evaluator.scores_no_foreground (fuel : Nat) (sal gt : Mat) (sc : Scores)
    (hno : ∀ j, j < gt.rows → ∀ i, i < gt.cols → ¬ 1 / 2 < gt.px j i)
    (h : Evaluator.scores fuel sal gt = some sc) :
    (gt.gtMask (.num (1 / 2))).sum = 0 ∧ sc.r = .nan ∧ sc.f = .nan := by
  have hG : (gt.gtMask (.num (1 / 2))).sum = 0 := by
    rw [Mask.sum_gtMask_eq_zero_iff]
    by_contra hne
    have hpos := Nat.pos_of_ne_zero hne
    rw [Mat.countAbove_pos_iff] at hpos
    obtain ⟨j, hj, i, hi, hlt⟩ := hpos
    exact hno j hj i hi hlt
  refine ⟨hG, ?_⟩
  unfold Evaluator.scores at h
  cases hs : Evaluator.shrink sal fuel (Evaluator.adaptiveStart sal) with
  | none => rw [hs] at h; cases h
  | some T =>
    rw [hs] at h
    simp only [Option.some.injEq] at h
    subst h
    have hmul : ∀ a : Dbl, Dbl.mul a .nan = .nan := by
      intro a; cases a <;> rfl
    have hdiv : ∀ a : Dbl, Dbl.div .nan a = .nan := by
      intro a; cases a <;> rfl
    simp only [hG, Dbl.div_zero, hmul, hdiv, and_self]

theorem onePixel_coords : onePixel.coords = [(0, 0)] := by decide

theorem onePixel_exit (fuel : Nat) (hf : 5 ≤ fuel) :
    Evaluator.shrink onePixel fuel (Evaluator.adaptiveStart onePixel)
      = some (.num (625 / 648)) := by
  have hstart : Evaluator.adaptiveStart onePixel = .num 2 := by
    rw [Evaluator.adaptiveStart_num onePixel (by decide) (by decide), Mat.sum, onePixel_coords]
    norm_num [onePixel]
  rw [hstart]
  have h0 : ∀ k', k' < 4 → onePixel.countAbove (2 / (6 / 5) ^ k') = 0 := by
    intro k' hk'
    by_contra hne
    have hpos := Nat.pos_of_ne_zero hne
    rw [Mat.countAbove_pos_iff] at hpos
    obtain ⟨j, -, i, -, h⟩ := hpos
    have hpx : onePixel.px j i = 1 := rfl
    rw [hpx] at h
    interval_cases k' <;> norm_num at h
  have h1 : 0 < onePixel.countAbove (2 / (6 / 5) ^ 4) := by
    rw [Mat.countAbove_pos_iff]
    exact ⟨0, by decide, 0, by decide, by norm_num [onePixel]⟩
  have := Evaluator.shrink_steps onePixel 4 2 fuel (by omega) h0 h1
  rw [this]
  norm_num

theorem zeroPixel_no_foreground :
    ∀ j, j < zeroPixel.rows → ∀ i, i < zeroPixel.cols → ¬ 1 / 2 < zeroPixel.px j i := by
  intro j _ i _
  norm_num [zeroPixel]

theorem precisionTerm_bounds (x : Mat × Mat) (i : Fin N_BINS) :
    0 ≤ precisionTerm i x ∧ precisionTerm i x ≤ 1 := by
  unfold precisionTerm
  have h0 : (0 : ℚ) ≤ (tpAt x.1 x.2 i : ℚ) := by exact_mod_cast tpAt_nonneg x.1 x.2 i
  have h1 : (tpAt x.1 x.2 i : ℚ) ≤ (predAt x.1 i : ℚ) := by
    exact_mod_cast tpAt_le_predAt x.1 x.2 i
  have he := eps_pos
  have hpos : (0 : ℚ) < (predAt x.1 i : ℚ) + eps := by linarith
  exact ⟨div_nonneg h0 hpos.le, (div_le_one hpos).2 (by linarith)⟩

theorem recallTerm_bounds (x : Mat × Mat) (i : Fin N_BINS) :
    0 ≤ recallTerm i x ∧ recallTerm i x ≤ 1 := by
  unfold recallTerm
  have h0 : (0 : ℚ) ≤ (tpAt x.1 x.2 i : ℚ) := by exact_mod_cast tpAt_nonneg x.1 x.2 i
  have h1 : (tpAt x.1 x.2 i : ℚ) ≤ (ngtOf x.1 x.2 : ℚ) := by
    exact_mod_cast tpAt_le_ngtOf x.1 x.2 i
  have he := eps_pos
  have hpos : (0 : ℚ) < (ngtOf x.1 x.2 : ℚ) + eps := by linarith
  exact ⟨div_nonneg h0 hpos.le, (div_le_one hpos).2 (by linarith)⟩

theorem Stat.ReachableN.bounds {s : Stat} {n : Nat} (h : Stat.ReachableN s n) :
    s.sm_ = (n : Int) ∧ ∀ i, (0 ≤ s.p_ i ∧ s.p_ i ≤ (n : ℚ)) ∧ (0 ≤ s.r_ i ∧ s.r_ i ≤ (n : ℚ)) := by
  induction h with
  | fresh => simp [Stat.fresh]
  | add s sal gt n _ _ ih =>
    obtain ⟨hsm, hb⟩ := ih
    refine ⟨by rw [Stat.add_sm_, hsm]; push_cast; rfl, fun i => ?_⟩
    obtain ⟨⟨hp0, hp1⟩, ⟨hr0, hr1⟩⟩ := hb i
    obtain ⟨a0, a1⟩ := precisionTerm_bounds (sal, gt) i
    obtain ⟨b0, b1⟩ := recallTerm_bounds (sal, gt) i
    unfold precisionTerm at a0 a1
    unfold recallTerm at b0 b1
    rw [Stat.add_p_, Stat.add_r_]
    push_cast
    exact ⟨⟨by linarith, by linarith⟩, ⟨by linarith, by linarith⟩⟩
  | merge a b n m _ _ iha ihb =>
    obtain ⟨hsa, hba⟩ := iha
    obtain ⟨hsb, hbb⟩ := ihb
    refine ⟨by rw [Stat.merge_sm_, hsa, hsb]; push_cast; rfl, fun i => ?_⟩
    obtain ⟨⟨hp0, hp1⟩, ⟨hr0, hr1⟩⟩ := hba i
    obtain ⟨⟨hq0, hq1⟩, ⟨hs0, hs1⟩⟩ := hbb i
    rw [Stat.merge_p_, Stat.merge_r_]
    push_cast
    exact ⟨⟨by linarith, by linarith⟩, ⟨by linarith, by linarith⟩⟩

theorem Mask.sum_nonneg (a : Mask) : 0 ≤ a.sum := by
  unfold Mask.sum
  apply List.sum_nonneg
  intro x hx
  rw [List.mem_map] at hx
  obtain ⟨ji, -, rfl⟩ := hx
  exact Nat.cast_nonneg _

/-- With a positive pixel in the score map and a foreground pixel in the ground truth, every
division of the per-image part of `evaluate` has a non-zero denominator: the step returns
and MAE, precision, recall and F-measure are numbers. -/
theorem Evaluator.scores_defined (sal gt : Mat)
    (hpos : ∃ j, j < sal.rows ∧ ∃ i, i < sal.cols ∧ 0 < sal.px j i)
    (hfg : ∃ j, j < gt.rows ∧ ∃ i, i < gt.cols ∧ 1 / 2 < gt.px j i) :
    ∃ k : Nat, ∀ fuel, k < fuel → ∃ e T p r f : ℚ,
      Evaluator.scores fuel sal gt
        = some { e := .num e, T := .num T, p := .num p, r := .num r, f := .num f }
      ∧ (sal.gtMask (.num T)).sum ≠ 0 ∧ (gt.gtMask (.num (1 / 2))).sum ≠ 0
      ∧ F_BETA2 * p + r + eps ≠ 0 := by
  obtain ⟨j, hj, i, hi, -⟩ := id hpos
  have hne : ((sal.cols * sal.rows : Nat) : ℚ) ≠ 0 := by
    have : 0 < sal.cols * sal.rows := Nat.mul_pos (by omega) (by omega)
    exact_mod_cast this.ne'
  obtain ⟨k, hk, hcount, -⟩ := Evaluator.shrink_terminates sal
    (2 * sal.sum / ((sal.cols * sal.rows : Nat) : ℚ)) hpos
  refine ⟨k, fun fuel hf => ?_⟩
  have hexit := hk fuel hf
  rw [← Evaluator.adaptiveStart_num sal (by omega) (by omega)] at hexit
  have hcount' := hcount
  generalize 2 * sal.sum / ((sal.cols * sal.rows : Nat) : ℚ) / (6 / 5) ^ k = T at hexit hcount'
  have hS : (sal.gtMask (.num T)).sum ≠ 0 := by
    rw [Ne, Mask.sum_gtMask_eq_zero_iff]
    omega
  have hG : (gt.gtMask (.num (1 / 2))).sum ≠ 0 := by
    rw [Ne, Mask.sum_gtMask_eq_zero_iff]
    have : 0 < gt.countAbove (1 / 2) := (Mat.countAbove_pos_iff gt _).2 hfg
    omega
  have hSpos := lt_of_le_of_ne (Mask.sum_nonneg _) (Ne.symm hS)
  have hGpos := lt_of_le_of_ne (Mask.sum_nonneg _) (Ne.symm hG)
  have htp := Mask.sum_nonneg ((sal.gtMask (.num T)).and (gt.gtMask (.num (1 / 2))))
  have hp := div_nonneg htp hSpos.le
  have hr := div_nonneg htp hGpos.le
  have hF : F_BETA2 * (((sal.gtMask (.num T)).and (gt.gtMask (.num (1 / 2)))).sum
        / (sal.gtMask (.num T)).sum)
      + ((sal.gtMask (.num T)).and (gt.gtMask (.num (1 / 2)))).sum
        / (gt.gtMask (.num (1 / 2))).sum + eps ≠ 0 := by
    have hb : (0 : ℚ) ≤ F_BETA2 := by norm_num [F_BETA2]
    have := mul_nonneg hb hp
    have he := eps_pos
    exact ne_of_gt (by linarith)
  refine ⟨(sal.absDiff gt).sum / ((sal.cols * sal.rows : Nat) : ℚ), T,
    ((sal.gtMask (.num T)).and (gt.gtMask (.num (1 / 2)))).sum / (sal.gtMask (.num T)).sum,
    ((sal.gtMask (.num T)).and (gt.gtMask (.num (1 / 2)))).sum
      / (gt.gtMask (.num (1 / 2))).sum,
    (1 + F_BETA2)
        * (((sal.gtMask (.num T)).and (gt.gtMask (.num (1 / 2)))).sum
            / (sal.gtMask (.num T)).sum)
        * (((sal.gtMask (.num T)).and (gt.gtMask (.num (1 / 2)))).sum
            / (gt.gtMask (.num (1 / 2))).sum)
      / (F_BETA2 * (((sal.gtMask (.num T)).and (gt.gtMask (.num (1 / 2)))).sum
            / (sal.gtMask (.num T)).sum)
          + ((sal.gtMask (.num T)).and (gt.gtMask (.num (1 / 2)))).sum
            / (gt.gtMask (.num (1 / 2))).sum + eps),
    ?_, hS, hG, hF⟩
  simp only [Evaluator.scores, hexit, Evaluator.mae, Dbl.div, Dbl.mul, Dbl.add, if_neg hne,
    if_neg hS, if_neg hG, if_neg hF]

/-- The two denominators of the sweep of `add`, `nsal + 1e-10` and `ngt + 1e-10`, are
positive at every bin. -/
theorem Stat.add_denominators_pos (sal gt : Mat) (i : Fin N_BINS) :
    0 < (predAt sal i : ℚ) + eps ∧ 0 < (ngtOf sal gt : ℚ) + eps := by
  have h1 : (0 : ℚ) ≤ (predAt sal i : ℚ) := by exact_mod_cast predAt_nonneg sal i
  have h2 : (0 : ℚ) ≤ (ngtOf sal gt : ℚ) := by exact_mod_cast ngtOf_nonneg sal gt
  have he := eps_pos
  exact ⟨by linarith, by linarith⟩

/-! ## The claims of the specification -/

/-- C1, counterexample. As stated the claim fails on the scratch histograms, which
`operator+=` keeps from its left operand. For the Stat `a` obtained by one `add` of the 1x1
score map `[[1]]` on a fresh Stat, merging a fresh Stat into `a` and merging `a` into a fresh
Stat give different Stats, and merging `a` into a fresh Stat does not give `a`. -/
theorem Stat.merge_scratch_counterexample :
    (Stat.fresh.add onePixel onePixel).merge Stat.fresh
        ≠ Stat.fresh.merge (Stat.fresh.add onePixel onePixel)
      ∧ Stat.fresh.merge (Stat.fresh.add onePixel onePixel)
        ≠ Stat.fresh.add onePixel onePixel := by
  have h1 : (Stat.fresh.add onePixel onePixel).bins1 ⟨255, by decide⟩ = 1 := by
    rw [Stat.add_eq]
    exact hist1_onePixel
  have h0 : ∀ a : Stat, (Stat.fresh.merge a).bins1 ⟨255, by decide⟩ = 0 := by
    intro a
    rw [Stat.merge_eq]
    rfl
  have h2 : ∀ a : Stat, (a.merge Stat.fresh).bins1 = a.bins1 := by
    intro a
    rw [Stat.merge_eq]
  constructor
  · intro h
    have := congrArg (fun s : Stat => s.bins1 ⟨255, by decide⟩) h
    simp only [h2, h1, h0] at this
    exact absurd this (by decide)
  · intro h
    have := congrArg (fun s : Stat => s.bins1 ⟨255, by decide⟩) h
    simp only [h1, h0] at this
    exact absurd this (by decide)

/-- C1, amended. The merge `operator+=` is associative as it stands, and merging a fresh
Stat into `a` gives `a`. It is commutative in `p_`, `r_` and `sm_`, and merging `a` into a
fresh Stat gives the `p_`, `r_` and `sm_` of `a`; the scratch histograms `bins0`, `bins1`
of a merge are those of its left operand. -/
theorem Stat.merge_assoc_comm_identity (a b c : Stat) :
    (a.merge b).merge c = a.merge (b.merge c)
      ∧ ((a.merge b).p_ = (b.merge a).p_ ∧ (a.merge b).r_ = (b.merge a).r_
          ∧ (a.merge b).sm_ = (b.merge a).sm_)
      ∧ ((a.merge b).bins0 = a.bins0 ∧ (a.merge b).bins1 = a.bins1)
      ∧ a.merge Stat.fresh = a
      ∧ ((Stat.fresh.merge a).p_ = a.p_ ∧ (Stat.fresh.merge a).r_ = a.r_
          ∧ (Stat.fresh.merge a).sm_ = a.sm_) := by
  simp only [Stat.merge_eq, Stat.fresh]
  refine ⟨?_, ⟨?_, ?_, ?_⟩, ⟨trivial, trivial⟩, ?_, ?_, ?_, ?_⟩
  · simp only [Stat.mk.injEq, true_and]
    exact ⟨funext fun i => add_assoc _ _ _, funext fun i => add_assoc _ _ _, add_assoc _ _ _⟩
  · exact funext fun i => add_comm _ _
  · exact funext fun i => add_comm _ _
  · exact add_comm _ _
  · simp
  · simp
  · simp
  · simp

/-- C2. For all lists `xs`, `ys` of (score map, ground truth) pairs with scores in `[0,1]`
and every permutation `zs` of `xs ++ ys`, merging the Stat obtained by `add` of every pair of
`xs` on a fresh Stat with the one obtained likewise from `ys` gives the same `p_`
(precision_sum), `r_` (recall_sum) and `sm_` (sample_count) as one fresh Stat on which `add`
is called for every pair of `zs`. -/
theorem Stat.merge_eq_addAll_perm (xs ys zs : List (Mat × Mat))
    (hperm : zs.Perm (xs ++ ys)) (_hunit : ∀ x ∈ xs ++ ys, x.1.inUnit) :
    ((Stat.fresh.addAll xs).merge (Stat.fresh.addAll ys)).p_ = (Stat.fresh.addAll zs).p_
      ∧ ((Stat.fresh.addAll xs).merge (Stat.fresh.addAll ys)).r_ = (Stat.fresh.addAll zs).r_
      ∧ ((Stat.fresh.addAll xs).merge (Stat.fresh.addAll ys)).sm_
          = (Stat.fresh.addAll zs).sm_ := by
  obtain ⟨hpx, hrx, hsx⟩ := Stat.addAll_fields xs Stat.fresh
  obtain ⟨hpy, hry, hsy⟩ := Stat.addAll_fields ys Stat.fresh
  obtain ⟨hpz, hrz, hsz⟩ := Stat.addAll_fields zs Stat.fresh
  refine ⟨funext fun i => ?_, funext fun i => ?_, ?_⟩
  · rw [Stat.merge_p_, hpx, hpy, hpz, (hperm.map (precisionTerm i)).sum_eq, List.map_append,
      List.sum_append]
    simp [Stat.fresh]
  · rw [Stat.merge_r_, hrx, hry, hrz, (hperm.map (recallTerm i)).sum_eq, List.map_append,
      List.sum_append]
    simp [Stat.fresh]
  · rw [Stat.merge_sm_, hsx, hsy, hsz, hperm.length_eq, List.length_append]
    simp [Stat.fresh]

/-- C2 at `xs = [([[1]], [[1]])]`, `ys = [([[1, 0]], [[1, 0]])]` and `zs` the two pairs in
the other order. -/
theorem Stat.merge_eq_addAll_perm_witness :
    [(oneZero, oneZero), (onePixel, onePixel)].Perm ([(onePixel, onePixel)] ++ [(oneZero, oneZero)])
      ∧ (∀ x ∈ [(onePixel, onePixel)] ++ [(oneZero, oneZero)], x.1.inUnit)
      ∧ ((Stat.fresh.addAll [(onePixel, onePixel)]).merge
            (Stat.fresh.addAll [(oneZero, oneZero)])).p_
          = (Stat.fresh.addAll [(oneZero, oneZero), (onePixel, onePixel)]).p_
      ∧ ((Stat.fresh.addAll [(onePixel, onePixel)]).merge
            (Stat.fresh.addAll [(oneZero, oneZero)])).r_
          = (Stat.fresh.addAll [(oneZero, oneZero), (onePixel, onePixel)]).r_
      ∧ ((Stat.fresh.addAll [(onePixel, onePixel)]).merge
            (Stat.fresh.addAll [(oneZero, oneZero)])).sm_
          = (Stat.fresh.addAll [(oneZero, oneZero), (onePixel, onePixel)]).sm_ :=
  have hperm : [(oneZero, oneZero), (onePixel, onePixel)].Perm
      ([(onePixel, onePixel)] ++ [(oneZero, oneZero)]) := List.Perm.swap _ _ []
  have hunit : ∀ x ∈ [(onePixel, onePixel)] ++ [(oneZero, oneZero)], x.1.inUnit := by
    intro x hx
    simp only [List.singleton_append, List.mem_cons, List.mem_singleton, List.not_mem_nil,
      or_false] at hx
    rcases hx with rfl | rfl
    · exact onePixel_inUnit
    · exact oneZero_inUnit
  ⟨hperm, hunit, Stat.merge_eq_addAll_perm _ _ _ hperm hunit⟩

/-- C3. For every Stat reached from a fresh Stat by `add` calls (scores in `[0,1]`) and
merges, `r_[i] >= r_[i+1]` for every `0 <= i < N_BINS - 1`: recall_sum does not decrease as the
bin index decreases. -/
theorem Stat.recall_sum_monotone (s : Stat) (hs : Stat.Reachable s) (i : Nat)
    (hi : i + 1 < N_BINS) :
    s.r_ ⟨i, Nat.lt_of_succ_lt hi⟩ ≥ s.r_ ⟨i + 1, hi⟩ :=
  hs.r_antitone ⟨i, Nat.lt_of_succ_lt hi⟩ ⟨i + 1, hi⟩ (Nat.le_succ i)

/-- C3 at the Stat after one `add` of the 1x2 score map `[[1, 0]]` with itself as ground
truth, bin 0. -/
theorem Stat.recall_sum_monotone_witness :
    Stat.Reachable (Stat.fresh.add oneZero oneZero) ∧ 0 + 1 < N_BINS
      ∧ (Stat.fresh.add oneZero oneZero).r_ ⟨0, by decide⟩
          ≥ (Stat.fresh.add oneZero oneZero).r_ ⟨0 + 1, by decide⟩ :=
  have hr : Stat.Reachable (Stat.fresh.add oneZero oneZero) :=
    Stat.Reachable.add _ _ _ Stat.Reachable.fresh oneZero_inUnit
  ⟨hr, by decide, Stat.recall_sum_monotone _ hr 0 (by decide)⟩

/-- C4, counterexample. For the 1x2 score map `[[1, 0]]` with ground truth `[[1, 0]]`, after
`add` on a fresh Stat `p_[0] = 1/(2 + 1e-10)` is strictly below `p_[1] = 1/(1 + 1e-10)`:
the background pixel of bin 0 lowers the precision. -/
theorem Stat.precision_sum_not_monotone :
    (Stat.fresh.add oneZero oneZero).p_ ⟨0, by decide⟩
      < (Stat.fresh.add oneZero oneZero).p_ ⟨0 + 1, by decide⟩ := by
  obtain ⟨h1, h2, h3, h4⟩ := oneZero_counts
  rw [Stat.add_p_, Stat.add_p_]
  simp only [zero_add]
  rw [h1, h2, h3, h4]
  norm_num [Stat.fresh, eps]

/-- C4, amended. For every score map with values in `[0,1]`, every ground truth and every
`0 <= i < N_BINS - 1`, after `add` on a fresh Stat `p_[i] >= p_[i+1]` holds exactly when
`bins0[i] >= bins1[i] * p_[i+1]`, that is when the pixels of bin `i` alone are at least as
precise as all the bins above it; in particular it holds when every pixel of bin `i` is
foreground (`bins0[i] = bins1[i]`). -/
theorem Stat.precision_sum_step_iff (sal gt : Mat) (_hs : sal.inUnit) (i : Nat)
    (hi : i + 1 < N_BINS) :
    ((Stat.fresh.add sal gt).p_ ⟨i, Nat.lt_of_succ_lt hi⟩
          ≥ (Stat.fresh.add sal gt).p_ ⟨i + 1, hi⟩
        ↔ ((Stat.fresh.add sal gt).bins0 ⟨i, Nat.lt_of_succ_lt hi⟩ : ℚ)
          ≥ ((Stat.fresh.add sal gt).bins1 ⟨i, Nat.lt_of_succ_lt hi⟩ : ℚ)
              * (Stat.fresh.add sal gt).p_ ⟨i + 1, hi⟩)
      ∧ ((Stat.fresh.add sal gt).bins0 ⟨i, Nat.lt_of_succ_lt hi⟩
            = (Stat.fresh.add sal gt).bins1 ⟨i, Nat.lt_of_succ_lt hi⟩ →
          (Stat.fresh.add sal gt).p_ ⟨i, Nat.lt_of_succ_lt hi⟩
            ≥ (Stat.fresh.add sal gt).p_ ⟨i + 1, hi⟩) := by
  have hb0 : (Stat.fresh.add sal gt).bins0 = hist0 sal gt := by rw [Stat.add_eq]
  have hb1 : (Stat.fresh.add sal gt).bins1 = hist1 sal := by rw [Stat.add_eq]
  rw [Stat.add_p_, Stat.add_p_, hb0, hb1, tpAt_succ sal gt i hi, predAt_succ sal i hi]
  have hP : (0 : ℚ) ≤ (predAt sal ⟨i + 1, hi⟩ : ℚ) := by
    exact_mod_cast predAt_nonneg sal ⟨i + 1, hi⟩
  have hTP : (tpAt sal gt ⟨i + 1, hi⟩ : ℚ) ≤ (predAt sal ⟨i + 1, hi⟩ : ℚ) := by
    exact_mod_cast tpAt_le_predAt sal gt ⟨i + 1, hi⟩
  have ha : (0 : ℚ) ≤ (hist1 sal ⟨i, Nat.lt_of_succ_lt hi⟩ : ℚ) := by
    exact_mod_cast hist1_nonneg sal ⟨i, Nat.lt_of_succ_lt hi⟩
  have hcast : hist0 sal gt ⟨i, Nat.lt_of_succ_lt hi⟩ = hist1 sal ⟨i, Nat.lt_of_succ_lt hi⟩ →
      (hist0 sal gt ⟨i, Nat.lt_of_succ_lt hi⟩ : ℚ)
        = (hist1 sal ⟨i, Nat.lt_of_succ_lt hi⟩ : ℚ) := fun h => by rw [h]
  have he := eps_pos
  simp only [Stat.fresh, zero_add, ge_iff_le]
  push_cast
  generalize hist0 sal gt ⟨i, Nat.lt_of_succ_lt hi⟩ = g0 at *
  generalize hist1 sal ⟨i, Nat.lt_of_succ_lt hi⟩ = a0 at *
  generalize (tpAt sal gt ⟨i + 1, hi⟩ : ℚ) = T at *
  generalize (predAt sal ⟨i + 1, hi⟩ : ℚ) = P at *
  generalize (g0 : ℚ) = g at *
  generalize (a0 : ℚ) = a at *
  have h1 : 0 < P + eps := by linarith
  have h2 : 0 < P + a + eps := by linarith
  have hiff : T / (P + eps) ≤ (T + g) / (P + a + eps) ↔ a * (T / (P + eps)) ≤ g := by
    rw [div_le_div_iff₀ h1 h2, ← mul_div_assoc, div_le_iff₀ h1]
    constructor <;> intro h <;> nlinarith
  refine ⟨hiff, fun hga => hiff.2 ?_⟩
  rw [hcast hga, ← mul_div_assoc, div_le_iff₀ h1]
  nlinarith

/-- C4, amended, at the 1x2 score map `[[1, 0]]` with itself as ground truth, bin 0. -/
theorem Stat.precision_sum_step_iff_witness :
    oneZero.inUnit ∧ 0 + 1 < N_BINS
      ∧ (((Stat.fresh.add oneZero oneZero).p_ ⟨0, by decide⟩
              ≥ (Stat.fresh.add oneZero oneZero).p_ ⟨0 + 1, by decide⟩
            ↔ ((Stat.fresh.add oneZero oneZero).bins0 ⟨0, by decide⟩ : ℚ)
              ≥ ((Stat.fresh.add oneZero oneZero).bins1 ⟨0, by decide⟩ : ℚ)
                  * (Stat.fresh.add oneZero oneZero).p_ ⟨0 + 1, by decide⟩)
          ∧ ((Stat.fresh.add oneZero oneZero).bins0 ⟨0, by decide⟩
                = (Stat.fresh.add oneZero oneZero).bins1 ⟨0, by decide⟩ →
              (Stat.fresh.add oneZero oneZero).p_ ⟨0, by decide⟩
                ≥ (Stat.fresh.add oneZero oneZero).p_ ⟨0 + 1, by decide⟩)) :=
  ⟨oneZero_inUnit, by decide,
    Stat.precision_sum_step_iff oneZero oneZero oneZero_inUnit 0 (by decide)⟩

/-- C5, counterexample. For the 1x1 score map `[[0]]` with the ground truth `[[0]]`, which
has no foreground pixel, after `add` on a fresh Stat `recall()[0]` is 0, not within `1e-10`
of 1. -/
theorem Stat.recall_zero_no_foreground :
    zeroPixel.inUnit
      ∧ (Stat.fresh.add zeroPixel zeroPixel).recall ⟨0, by decide⟩ = Dbl.num 0
      ∧ ¬ ((Stat.fresh.add zeroPixel zeroPixel).recall ⟨0, by decide⟩).within 1 eps := by
  have h : (Stat.fresh.add zeroPixel zeroPixel).recall ⟨0, by decide⟩ = Dbl.num 0 := by
    rw [Stat.recall_fresh_add]
    have hf : fg zeroPixel 0 0 = 0 := by
      have : zeroPixel.px 0 0 = 0 := rfl
      rw [fg, this]; norm_num
    have : tpAt zeroPixel zeroPixel ⟨0, by decide⟩ = 0 := by
      simp [tpAt, zeroPixel_coords, hf]
    rw [this]
    simp
  refine ⟨zeroPixel_inUnit, h, ?_⟩
  rw [h]
  rintro ⟨q, hq, hle⟩
  cases hq
  norm_num [eps] at hle

/-- C5, amended. For every score map with values in `[0,1]` and every ground truth with at
least one foreground pixel (`gt > 0.5`), after `add` on a fresh Stat `recall()[0]` is a
number within `1e-10` of 1. -/
theorem Stat.recall_zero_near_one (sal gt : Mat) (hs : sal.inUnit)
    (hfg : ∃ j, j < sal.rows ∧ ∃ i, i < sal.cols ∧ 1 / 2 < gt.px j i) :
    ((Stat.fresh.add sal gt).recall ⟨0, by decide⟩).within 1 eps := by
  rw [Stat.recall_fresh_add, tpAt_zero_of_inUnit sal gt hs]
  have hG : (1 : ℚ) ≤ (ngtOf sal gt : ℚ) := by exact_mod_cast ngtOf_pos sal gt hfg
  have he := eps_pos
  refine ⟨_, rfl, ?_⟩
  generalize (ngtOf sal gt : ℚ) = G at *
  have hpos : 0 < G + eps := by linarith
  have h1 : G / (G + eps) - 1 = - (eps / (G + eps)) := by
    field_simp
  rw [h1, abs_neg, abs_of_nonneg (le_of_lt (div_pos he hpos)), div_le_iff₀ hpos]
  nlinarith

/-- C5, amended, at the 1x1 score map `[[1]]` with itself as ground truth. -/
theorem Stat.recall_zero_near_one_witness :
    onePixel.inUnit
      ∧ (∃ j, j < onePixel.rows ∧ ∃ i, i < onePixel.cols ∧ 1 / 2 < onePixel.px j i)
      ∧ ((Stat.fresh.add onePixel onePixel).recall ⟨0, by decide⟩).within 1 eps :=
  have h := Stat.recall_zero_near_one onePixel onePixel onePixel_inUnit onePixel_fg
  ⟨onePixel_inUnit, onePixel_fg, h⟩

/-- C6. For every score map with values in `[0,1]` and at least one strictly positive
pixel, the threshold loop started at `T = 2 * mean(score)` exits after finitely many shrink
steps: there is a `k` such that with any fuel above `k` the loop returns the threshold
`T = 2 * mean(score) / 1.2^k`, and some pixel exceeds the returned `T`. -/
theorem Evaluator.adaptive_threshold_terminates (sal : Mat) (_hs : sal.inUnit)
    (hpos : ∃ j, j < sal.rows ∧ ∃ i, i < sal.cols ∧ 0 < sal.px j i) :
    ∃ (k : Nat) (T : ℚ),
      (∀ fuel, k < fuel →
        Evaluator.shrink sal fuel (Evaluator.adaptiveStart sal) = some (.num T))
      ∧ T = 2 * sal.sum / ((sal.cols * sal.rows : Nat) : ℚ) / (6 / 5) ^ k
      ∧ 0 < sal.countAbove T := by
  obtain ⟨j, hj, i, hi, -⟩ := id hpos
  rw [Evaluator.adaptiveStart_num sal (by omega) (by omega)]
  obtain ⟨k, hk, hc, -⟩ := Evaluator.shrink_terminates sal
    (2 * sal.sum / ((sal.cols * sal.rows : Nat) : ℚ)) hpos
  exact ⟨k, _, hk, rfl, hc⟩

/-- C6 at the 2x2 score map `[[1,1],[0,0]]`. -/
theorem Evaluator.adaptive_threshold_terminates_witness :
    topRow.inUnit ∧ (∃ j, j < topRow.rows ∧ ∃ i, i < topRow.cols ∧ 0 < topRow.px j i)
      ∧ ∃ (k : Nat) (T : ℚ),
        (∀ fuel, k < fuel →
          Evaluator.shrink topRow fuel (Evaluator.adaptiveStart topRow) = some (.num T))
        ∧ T = 2 * topRow.sum / ((topRow.cols * topRow.rows : Nat) : ℚ) / (6 / 5) ^ k
        ∧ 0 < topRow.countAbove T :=
  ⟨topRow_inUnit, topRow_pos, Evaluator.adaptive_threshold_terminates topRow topRow_inUnit topRow_pos⟩

/-- C7, the code at the failing input. For the all-zero 1x1 score map `[[0]]`, any ground
truth and any accumulator state, `evaluate` does not return whatever the fuel: the threshold
stays 0, no pixel exceeds it, and the loop has no bound and no error exit. -/
theorem Evaluator.evaluate_zero_map_never_returns (fuel : Nat) (ev : Evaluator) (gt : Mat) :
    Evaluator.evaluate fuel ev zeroPixel gt = none := by
  simp [Evaluator.evaluate, Evaluator.scores, Evaluator.adaptiveStart_zeroPixel,
    Evaluator.shrink_zeroPixel]

/-- C8, counterexample. For the empty 0x0 map against itself, two maps of the same
dimensions that are equal pixel-wise, `mae` divides 0 by the area 0: the result is undefined
(NaN), not zero. -/
theorem Evaluator.mae_empty_undefined :
    emptyMat.sameDims emptyMat ∧ emptyMat.pixelEq emptyMat
      ∧ Evaluator.mae emptyMat emptyMat = Dbl.nan
      ∧ Evaluator.mae emptyMat emptyMat ≠ Dbl.num 0 := by
  have h : Evaluator.mae emptyMat emptyMat = Dbl.nan := by
    simp [Evaluator.mae, Dbl.div, emptyMat]
  refine ⟨⟨rfl, rfl⟩, fun j hj => absurd hj (Nat.not_lt_zero j), h, ?_⟩
  rw [h]
  intro hc
  cases hc

/-- C8, amended. For all non-empty maps `sal` and `gt` of the same dimensions,
`mae( sal, gt ) = mae( gt, sal )`, and `mae( sal, gt )` is a non-negative number that is zero
if and only if `sal` and `gt` are equal pixel-wise. -/
theorem Evaluator.mae_symm_nonneg_zero_iff (sal gt : Mat) (hd : sal.sameDims gt)
    (hr : 0 < sal.rows) (hc : 0 < sal.cols) :
    Evaluator.mae sal gt = Evaluator.mae gt sal
      ∧ ∃ q, Evaluator.mae sal gt = .num q ∧ 0 ≤ q ∧ (q = 0 ↔ sal.pixelEq gt) := by
  have hpos : (0 : ℚ) < ((sal.cols * sal.rows : Nat) : ℚ) := by
    have : 0 < sal.cols * sal.rows := Nat.mul_pos hc hr
    exact_mod_cast this
  have hmae : Evaluator.mae sal gt
      = .num ((sal.absDiff gt).sum / ((sal.cols * sal.rows : Nat) : ℚ)) := by
    simp only [Evaluator.mae, Dbl.div, if_neg hpos.ne']
  constructor
  · unfold Evaluator.mae
    rw [Mat.sum_absDiff_comm sal gt hd, hd.1, hd.2]
  · refine ⟨_, hmae, div_nonneg (Mat.sum_absDiff_nonneg sal gt) hpos.le, ?_⟩
    rw [div_eq_zero_iff, Mat.sum_absDiff_eq_zero_iff]
    constructor
    · rintro (h | h)
      · exact h
      · exact absurd h hpos.ne'
    · exact Or.inl

/-- C8, amended, at the 1x1 maps `[[1]]` and `[[0]]`. -/
theorem Evaluator.mae_symm_nonneg_zero_iff_witness :
    onePixel.sameDims zeroPixel ∧ 0 < onePixel.rows ∧ 0 < onePixel.cols
      ∧ (Evaluator.mae onePixel zeroPixel = Evaluator.mae zeroPixel onePixel
        ∧ ∃ q, Evaluator.mae onePixel zeroPixel = .num q ∧ 0 ≤ q
          ∧ (q = 0 ↔ onePixel.pixelEq zeroPixel)) :=
  ⟨⟨rfl, rfl⟩, by decide, by decide,
    Evaluator.mae_symm_nonneg_zero_iff onePixel zeroPixel ⟨rfl, rfl⟩ (by decide) (by decide)⟩

/-- C9. For every binary ground truth with at least one foreground pixel and a score map
of the same dimensions equal to it pixel-wise, one `evaluate` step returns (with enough
fuel for the threshold loop) and yields per-image MAE 0, precision 1 and recall 1 at the
adaptive threshold; these are the values it adds to `mae_`, `p_` and `r_`. -/
theorem Evaluator.evaluate_perfect_match (sal gt : Mat) (hbin : gt.isBinary)
    (hfg : ∃ j, j < gt.rows ∧ ∃ i, i < gt.cols ∧ gt.px j i = 1)
    (hd : sal.sameDims gt) (heq : sal.pixelEq gt) :
    ∃ k : Nat, ∀ fuel, k < fuel →
      ∃ sc, Evaluator.scores fuel sal gt = some sc
        ∧ sc.e = .num 0 ∧ sc.p = .num 1 ∧ sc.r = .num 1
        ∧ ∀ ev : Evaluator, Evaluator.evaluate fuel ev sal gt
            = some { mae_ := Dbl.add ev.mae_ (.num 0)
                     p_ := Dbl.add ev.p_ (.num 1)
                     r_ := Dbl.add ev.r_ (.num 1)
                     f_ := Dbl.add ev.f_ sc.f
                     cnt_ := Dbl.add ev.cnt_ (.num 1)
                     stat_ := ev.stat_.add sal gt } := by
  obtain ⟨j, hj, i, hi, h1⟩ := hfg
  have hj' : j < sal.rows := hd.1 ▸ hj
  have hi' : i < sal.cols := hd.2 ▸ hi
  have hsbin : sal.isBinary := by
    intro a ha b hb
    rw [heq a ha b hb]
    exact hbin a (hd.1 ▸ ha) b (hd.2 ▸ hb)
  have hs1 : sal.px j i = 1 := by rw [heq j hj' i hi', h1]
  have hpos : ∃ j, j < sal.rows ∧ ∃ i, i < sal.cols ∧ 0 < sal.px j i :=
    ⟨j, hj', i, hi', by rw [hs1]; norm_num⟩
  have hsum : 0 < sal.sum := Mat.sum_pos_of_binary sal hsbin ⟨j, hj', i, hi', hs1⟩
  have harea : (0 : ℚ) < ((sal.cols * sal.rows : Nat) : ℚ) := by
    have : 0 < sal.cols * sal.rows := Nat.mul_pos (by omega) (by omega)
    exact_mod_cast this
  obtain ⟨k, hk, hcount, -⟩ := Evaluator.shrink_terminates sal
    (2 * sal.sum / ((sal.cols * sal.rows : Nat) : ℚ)) hpos
  refine ⟨k, fun fuel hf => ?_⟩
  have hexit := hk fuel hf
  rw [← Evaluator.adaptiveStart_num sal (by omega) (by omega)] at hexit
  have hT : 0 < 2 * sal.sum / ((sal.cols * sal.rows : Nat) : ℚ) / (6 / 5) ^ k := by
    positivity
  have hsc := Evaluator.scores_of_exit fuel sal gt _ hbin hd heq hexit hT hcount
  refine ⟨_, hsc, rfl, rfl, rfl, fun ev => ?_⟩
  simp only [Evaluator.evaluate, hsc]

/-- C9 at the 2x2 ground truth `[[1,1],[0,0]]` with the score map `[[1,1],[0,0]]`. -/
theorem Evaluator.evaluate_perfect_match_witness :
    topRow.isBinary ∧ (∃ j, j < topRow.rows ∧ ∃ i, i < topRow.cols ∧ topRow.px j i = 1)
      ∧ topRow.sameDims topRow ∧ topRow.pixelEq topRow
      ∧ ∃ k : Nat, ∀ fuel, k < fuel →
        ∃ sc, Evaluator.scores fuel topRow topRow = some sc
          ∧ sc.e = .num 0 ∧ sc.p = .num 1 ∧ sc.r = .num 1
          ∧ ∀ ev : Evaluator, Evaluator.evaluate fuel ev topRow topRow
              = some { mae_ := Dbl.add ev.mae_ (.num 0)
                       p_ := Dbl.add ev.p_ (.num 1)
                       r_ := Dbl.add ev.r_ (.num 1)
                       f_ := Dbl.add ev.f_ sc.f
                       cnt_ := Dbl.add ev.cnt_ (.num 1)
                       stat_ := ev.stat_.add topRow topRow } :=
  ⟨topRow_isBinary, topRow_fg, ⟨rfl, rfl⟩, fun _ _ _ _ => rfl,
    Evaluator.evaluate_perfect_match topRow topRow topRow_isBinary topRow_fg ⟨rfl, rfl⟩
      (fun _ _ _ _ => rfl)⟩

/-- C10, counterexample. For the 2x2 ground truth `[[1,1],[0,0]]` and the score map
`[[1,1],[0,0]]`, `evaluate` returns with fuel 2, and whenever it returns the F-measure is
`1.3 / (1.3 + 1e-10) = 13000000000/13000000001`, which is not 1. -/
theorem Evaluator.fmeasure_perfect_not_one :
    (∃ sc, Evaluator.scores 2 topRow topRow = some sc)
      ∧ (∀ fuel sc, Evaluator.scores fuel topRow topRow = some sc →
          sc.f = .num (13000000000 / 13000000001) ∧ sc.f ≠ .num 1) := by
  refine ⟨⟨_, topRow_scores 2 le_rfl⟩, fun fuel sc h => ?_⟩
  by_cases hf : 2 ≤ fuel
  · rw [topRow_scores fuel hf] at h
    cases h
    refine ⟨by rw [perfectF_eq], ?_⟩
    intro hc
    have := Dbl.num.inj hc
    rw [perfectF_eq] at this
    norm_num at this
  · rw [topRow_scores_none fuel (by omega)] at h
    cases h

/-- C10, amended. For the 2x2 ground truth `[[1,1],[0,0]]` and the score map
`[[1,1],[0,0]]`, with precision 1 and recall 1 at the adaptive threshold, the F-measure
`(1+β²)·p·r / (β²·p + r + ε)` computed by `evaluate` equals
`1.3 / (1.3 + 1e-10) = 13000000000/13000000001`, which is within `1e-10` of 1. -/
theorem Evaluator.fmeasure_perfect_value (fuel : Nat) (hf : 2 ≤ fuel) :
    ∃ sc, Evaluator.scores fuel topRow topRow = some sc
      ∧ sc.p = .num 1 ∧ sc.r = .num 1
      ∧ sc.f = .num (13000000000 / 13000000001)
      ∧ sc.f.within 1 eps := by
  refine ⟨_, topRow_scores fuel hf, rfl, rfl, by rw [perfectF_eq], _, rfl, ?_⟩
  rw [perfectF_eq]
  norm_num [eps, abs_le]

/-- C10, amended, with fuel 2: one shrink step from `T = 1` to `T = 5/6`. -/
theorem Evaluator.fmeasure_perfect_value_witness :
    2 ≤ 2 ∧ ∃ sc, Evaluator.scores 2 topRow topRow = some sc
      ∧ sc.p = .num 1 ∧ sc.r = .num 1
      ∧ sc.f = .num (13000000000 / 13000000001)
      ∧ sc.f.within 1 eps :=
  ⟨le_rfl, Evaluator.fmeasure_perfect_value 2 le_rfl⟩

/-- C11. For every binary ground truth with at least one foreground and one background
pixel and the inverted score map `1 - gt` of the same dimensions, one `evaluate` step
returns (with enough fuel for the threshold loop) and yields precision 0, recall 0 and
MAE 1, and the F-measure is the number 0, not an undefined value: its denominator is the
guard `1e-10`. These are the values the step adds to `p_`, `r_`, `mae_` and `f_`. -/
theorem Evaluator.evaluate_inverted (sal gt : Mat) (hbin : gt.isBinary)
    (hfg : ∃ j, j < gt.rows ∧ ∃ i, i < gt.cols ∧ gt.px j i = 1)
    (hbg : ∃ j, j < gt.rows ∧ ∃ i, i < gt.cols ∧ gt.px j i = 0)
    (hd : sal.sameDims gt)
    (hinv : ∀ j, j < sal.rows → ∀ i, i < sal.cols → sal.px j i = 1 - gt.px j i) :
    ∃ k : Nat, ∀ fuel, k < fuel →
      ∃ sc, Evaluator.scores fuel sal gt = some sc
        ∧ sc.p = .num 0 ∧ sc.r = .num 0 ∧ sc.e = .num 1 ∧ sc.f = .num 0
        ∧ ∀ ev : Evaluator, Evaluator.evaluate fuel ev sal gt
            = some { mae_ := Dbl.add ev.mae_ (.num 1)
                     p_ := Dbl.add ev.p_ (.num 0)
                     r_ := Dbl.add ev.r_ (.num 0)
                     f_ := Dbl.add ev.f_ (.num 0)
                     cnt_ := Dbl.add ev.cnt_ (.num 1)
                     stat_ := ev.stat_.add sal gt } := by
  obtain ⟨j, hj, i, hi, h0⟩ := hbg
  have hj' : j < sal.rows := hd.1 ▸ hj
  have hi' : i < sal.cols := hd.2 ▸ hi
  have hsbin : sal.isBinary := by
    intro a ha b hb
    rw [hinv a ha b hb]
    rcases hbin a (hd.1 ▸ ha) b (hd.2 ▸ hb) with h | h <;> rw [h] <;> norm_num
  have hs1 : sal.px j i = 1 := by rw [hinv j hj' i hi', h0, sub_zero]
  have hpos : ∃ j, j < sal.rows ∧ ∃ i, i < sal.cols ∧ 0 < sal.px j i :=
    ⟨j, hj', i, hi', by rw [hs1]; norm_num⟩
  have hsum : 0 < sal.sum := Mat.sum_pos_of_binary sal hsbin ⟨j, hj', i, hi', hs1⟩
  have harea : (0 : ℚ) < ((sal.cols * sal.rows : Nat) : ℚ) := by
    have : 0 < sal.cols * sal.rows := Nat.mul_pos (by omega) (by omega)
    exact_mod_cast this
  obtain ⟨k, hk, hcount, -⟩ := Evaluator.shrink_terminates sal
    (2 * sal.sum / ((sal.cols * sal.rows : Nat) : ℚ)) hpos
  refine ⟨k, fun fuel hf => ?_⟩
  have hexit := hk fuel hf
  rw [← Evaluator.adaptiveStart_num sal (by omega) (by omega)] at hexit
  have hT : 0 < 2 * sal.sum / ((sal.cols * sal.rows : Nat) : ℚ) / (6 / 5) ^ k := by
    positivity
  have hsc := Evaluator.scores_of_exit_inverted fuel sal gt _ hbin hd hinv hfg hexit hT hcount
  refine ⟨_, hsc, rfl, rfl, rfl, rfl, fun ev => ?_⟩
  simp only [Evaluator.evaluate, hsc]

/-- C11 at the 2x2 ground truth `[[1,1],[0,0]]` with the score map `[[0,0],[1,1]]`. -/
theorem Evaluator.evaluate_inverted_witness :
    topRow.isBinary
      ∧ (∃ j, j < topRow.rows ∧ ∃ i, i < topRow.cols ∧ topRow.px j i = 1)
      ∧ (∃ j, j < topRow.rows ∧ ∃ i, i < topRow.cols ∧ topRow.px j i = 0)
      ∧ bottomRow.sameDims topRow
      ∧ (∀ j, j < bottomRow.rows → ∀ i, i < bottomRow.cols →
          bottomRow.px j i = 1 - topRow.px j i)
      ∧ ∃ k : Nat, ∀ fuel, k < fuel →
        ∃ sc, Evaluator.scores fuel bottomRow topRow = some sc
          ∧ sc.p = .num 0 ∧ sc.r = .num 0 ∧ sc.e = .num 1 ∧ sc.f = .num 0
          ∧ ∀ ev : Evaluator, Evaluator.evaluate fuel ev bottomRow topRow
              = some { mae_ := Dbl.add ev.mae_ (.num 1)
                       p_ := Dbl.add ev.p_ (.num 0)
                       r_ := Dbl.add ev.r_ (.num 0)
                       f_ := Dbl.add ev.f_ (.num 0)
                       cnt_ := Dbl.add ev.cnt_ (.num 1)
                       stat_ := ev.stat_.add bottomRow topRow } :=
  ⟨topRow_isBinary, topRow_fg, topRow_bg, ⟨rfl, rfl⟩, bottomRow_inverts,
    Evaluator.evaluate_inverted bottomRow topRow topRow_isBinary topRow_fg topRow_bg
      ⟨rfl, rfl⟩ bottomRow_inverts⟩

/-- C12. For every dataset, given as the (score map, ground truth) pairs of its images, and
every split point `k <= n` such that each per-image evaluation returns, evaluating `[0,k)`
in one Evaluator and `[k,n)` in a split copy, joining them and normalising gives the same
MAE, precision, recall and F-measure and the same `precision()` and `recall()` curves as
evaluating all images sequentially in one Evaluator and normalising. -/
theorem Evaluator.split_join_eq_sequential (fuel : Nat) (data : List (Mat × Mat)) (k : Nat)
    (_hk : k ≤ data.length)
    (hdef : ∀ x ∈ data, ∃ sc, Evaluator.scores fuel x.1 x.2 = some sc) :
    ∃ seq par,
      Evaluator.evalAll fuel Evaluator.fresh data = some seq
        ∧ Evaluator.evalAllSplit fuel Evaluator.fresh k data = some par
        ∧ par.mae_ = seq.mae_ ∧ par.p_ = seq.p_ ∧ par.r_ = seq.r_ ∧ par.f_ = seq.f_
        ∧ par.stat_.precision = seq.stat_.precision
        ∧ par.stat_.recall = seq.stat_.recall := by
  have hsplit : data.take k ++ data.drop k = data := List.take_append_drop k data
  have hdef1 : ∀ x ∈ data.take k, ∃ sc, Evaluator.scores fuel x.1 x.2 = some sc :=
    fun x hx => hdef x (List.mem_of_mem_take hx)
  have hdef2 : ∀ x ∈ data.drop k, ∃ sc, Evaluator.scores fuel x.1 x.2 = some sc :=
    fun x hx => hdef x (List.mem_of_mem_drop hx)
  have hseq := Evaluator.evalRange_eq fuel data Evaluator.fresh hdef
  have h1 := Evaluator.evalRange_eq fuel (data.take k) Evaluator.fresh hdef1
  have h2 := Evaluator.evalRange_eq fuel (data.drop k) Evaluator.fresh.split hdef2
  have hsum : ∀ g : Mat × Mat → Dbl,
      Dbl.add (Dbl.add (.num 0) (Dbl.sum ((data.take k).map g)))
          (Dbl.add (.num 0) (Dbl.sum ((data.drop k).map g)))
        = Dbl.add (.num 0) (Dbl.sum (data.map g)) := by
    intro g
    rw [Dbl.zeroAdd, Dbl.zeroAdd, Dbl.zeroAdd, ← Dbl.sum_append, ← List.map_append, hsplit]
  obtain ⟨hpx, hrx, hsx⟩ := Stat.addAll_fields (data.take k) Stat.fresh
  obtain ⟨hpy, hry, hsy⟩ := Stat.addAll_fields (data.drop k) Stat.fresh
  obtain ⟨hpz, hrz, hsz⟩ := Stat.addAll_fields data Stat.fresh
  have hlen : ((data.take k).length : Int) + ((data.drop k).length : Int) = data.length := by
    rw [← Int.natCast_add, ← List.length_append, hsplit]
  have hsm : ((Stat.fresh.addAll (data.take k)).merge (Stat.fresh.addAll (data.drop k))).sm_
      = (Stat.fresh.addAll data).sm_ := by
    rw [Stat.merge_sm_, hsx, hsy, hsz]
    simp only [Stat.fresh, zero_add]
    exact hlen
  have hp : ∀ i, ((Stat.fresh.addAll (data.take k)).merge
      (Stat.fresh.addAll (data.drop k))).p_ i = (Stat.fresh.addAll data).p_ i := by
    intro i
    rw [Stat.merge_p_, hpx, hpy, hpz]
    simp only [Stat.fresh, zero_add]
    rw [← List.sum_append, ← List.map_append, hsplit]
  have hr : ∀ i, ((Stat.fresh.addAll (data.take k)).merge
      (Stat.fresh.addAll (data.drop k))).r_ i = (Stat.fresh.addAll data).r_ i := by
    intro i
    rw [Stat.merge_r_, hrx, hry, hrz]
    simp only [Stat.fresh, zero_add]
    rw [← List.sum_append, ← List.map_append, hsplit]
  refine ⟨_, _, Evaluator.evalAll_of_range hseq, Evaluator.evalAllSplit_of_range h1 h2,
    ?_, ?_, ?_, ?_, ?_, ?_⟩
  · simp only [Evaluator.normalize, Evaluator.join, Evaluator.fresh, Evaluator.split, hsum]
  · simp only [Evaluator.normalize, Evaluator.join, Evaluator.fresh, Evaluator.split, hsum]
  · simp only [Evaluator.normalize, Evaluator.join, Evaluator.fresh, Evaluator.split, hsum]
  · simp only [Evaluator.normalize, Evaluator.join, Evaluator.fresh, Evaluator.split, hsum]
  · funext i
    simp only [Evaluator.normalize, Evaluator.join, Evaluator.fresh, Evaluator.split,
      Stat.precision, hp, hsm]
  · funext i
    simp only [Evaluator.normalize, Evaluator.join, Evaluator.fresh, Evaluator.split,
      Stat.recall, hr, hsm]

/-- C12 at the dataset of the two 2x2 images `([[1,1],[0,0]], [[1,1],[0,0]])` and
`([[0,0],[1,1]], [[1,1],[0,0]])`, split at 1, with fuel 2. -/
theorem Evaluator.split_join_eq_sequential_witness :
    1 ≤ [(topRow, topRow), (bottomRow, topRow)].length
      ∧ (∀ x ∈ [(topRow, topRow), (bottomRow, topRow)],
          ∃ sc, Evaluator.scores 2 x.1 x.2 = some sc)
      ∧ ∃ seq par,
        Evaluator.evalAll 2 Evaluator.fresh [(topRow, topRow), (bottomRow, topRow)] = some seq
          ∧ Evaluator.evalAllSplit 2 Evaluator.fresh 1
              [(topRow, topRow), (bottomRow, topRow)] = some par
          ∧ par.mae_ = seq.mae_ ∧ par.p_ = seq.p_ ∧ par.r_ = seq.r_ ∧ par.f_ = seq.f_
          ∧ par.stat_.precision = seq.stat_.precision
          ∧ par.stat_.recall = seq.stat_.recall :=
  ⟨by decide, twoImages_defined,
    Evaluator.split_join_eq_sequential 2 [(topRow, topRow), (bottomRow, topRow)] 1
      (by decide) twoImages_defined⟩

/-- C13. For every (score map, ground truth) pair with scores in `[0,1]` and every
`n >= 1`, calling `add` `n` times with that pair on a fresh Stat gives the same
`precision()` and `recall()` curves, bin by bin, as calling `add` once. -/
theorem Stat.curves_of_identical_images (sal gt : Mat) (_hs : sal.inUnit) (n : Nat)
    (hn : 1 ≤ n) :
    (Stat.fresh.addAll (List.replicate n (sal, gt))).precision
        = (Stat.fresh.add sal gt).precision
      ∧ (Stat.fresh.addAll (List.replicate n (sal, gt))).recall
        = (Stat.fresh.add sal gt).recall := by
  obtain ⟨hp, hr, hsm⟩ := Stat.addAll_fields (List.replicate n (sal, gt)) Stat.fresh
  have hn0 : (n : ℚ) ≠ 0 := by
    have : 0 < n := hn
    exact_mod_cast this.ne'
  have hsm1 : (((Stat.fresh.addAll (List.replicate n (sal, gt))).sm_ : Int) : ℚ) = (n : ℚ) := by
    rw [hsm, List.length_replicate]
    simp [Stat.fresh]
  have hsm2 : (((Stat.fresh.add sal gt).sm_ : Int) : ℚ) = 1 := by
    rw [Stat.add_sm_]
    simp [Stat.fresh]
  constructor
  · funext i
    unfold Stat.precision
    rw [hsm1, hsm2, hp, Stat.add_p_, sum_replicate_map]
    simp only [Stat.fresh, zero_add, Dbl.div, if_neg hn0, if_neg one_ne_zero, precisionTerm,
      div_one]
    rw [mul_div_cancel_left₀ _ hn0]
  · funext i
    unfold Stat.recall
    rw [hsm1, hsm2, hr, Stat.add_r_, sum_replicate_map]
    simp only [Stat.fresh, zero_add, Dbl.div, if_neg hn0, if_neg one_ne_zero, recallTerm,
      div_one]
    rw [mul_div_cancel_left₀ _ hn0]

/-- C13 at the 1x2 score map `[[1, 0]]` with itself as ground truth, three times. -/
theorem Stat.curves_of_identical_images_witness :
    oneZero.inUnit ∧ 1 ≤ 3
      ∧ (Stat.fresh.addAll (List.replicate 3 (oneZero, oneZero))).precision
          = (Stat.fresh.add oneZero oneZero).precision
      ∧ (Stat.fresh.addAll (List.replicate 3 (oneZero, oneZero))).recall
          = (Stat.fresh.add oneZero oneZero).recall :=
  ⟨oneZero_inUnit, by decide,
    Stat.curves_of_identical_images oneZero oneZero oneZero_inUnit 3 (by decide)⟩

/-- C14, counterexample. On the empty dataset the sequential `evalAll` of a fresh Evaluator
does not fail: it returns, with MAE, precision, recall and F-measure undefined (`0/0`) and
the image count 0. -/
theorem Evaluator.evalAll_empty_returns_nan :
    Evaluator.evalAll 0 Evaluator.fresh []
      = some { mae_ := .nan, p_ := .nan, r_ := .nan, f_ := .nan, cnt_ := .num 0,
               stat_ := Stat.fresh } := by
  simp [Evaluator.evalAll, Evaluator.evalRange, Evaluator.normalize, Evaluator.fresh, Dbl.div]

/-- C14, amended. On an empty dataset `evalAll`, sequential or with a split of the (empty)
range, raises no error: the normalisation divides the zero sums by the image count 0 and
returns MAE, precision, recall and F-measure all undefined (`0/0`, NaN), with the image
count 0 and a fresh Stat. -/
theorem Evaluator.evalAll_empty (fuel k : Nat) :
    Evaluator.evalAll fuel Evaluator.fresh []
        = some { mae_ := .nan, p_ := .nan, r_ := .nan, f_ := .nan, cnt_ := .num 0,
                 stat_ := Stat.fresh }
      ∧ Evaluator.evalAllSplit fuel Evaluator.fresh k []
        = some { mae_ := .nan, p_ := .nan, r_ := .nan, f_ := .nan, cnt_ := .num 0,
                 stat_ := Stat.fresh } := by
  constructor
  · simp [Evaluator.evalAll, Evaluator.evalRange, Evaluator.normalize, Evaluator.fresh,
      Dbl.div]
  · simp [Evaluator.evalAllSplit, Evaluator.evalRange, Evaluator.normalize, Evaluator.fresh,
      Evaluator.split, Evaluator.join, Dbl.div, Dbl.add, Stat.merge_fresh_fresh]

/-- C15. For every list of directory entry names, the catalog records exactly the names
longer than 3 characters that end in `bmp`, in enumeration order: the ground-truth file is
the name under the mask directory, the image file is the name with its last 3 characters
replaced by `jpg` under the image directory, the entry's name is the file name without its
last 4 characters, `size()` is the number of such names, and the three lists have equal
length. -/
theorem Dataset.build_catalog (entries : List (List Char)) :
    (Dataset.build entries).gt_
        = (entries.filter fun n => decide (isMaskName n)).map
            (fun n => ground_truth_path ++ "/".toList ++ n)
      ∧ (Dataset.build entries).im_
        = (entries.filter fun n => decide (isMaskName n)).map
            (fun n => dataset_path ++ "/".toList ++ (n.take (n.length - 3) ++ "jpg".toList))
      ∧ (Dataset.build entries).name_
        = (entries.filter fun n => decide (isMaskName n)).map
            (fun n => n.take (n.length - 4))
      ∧ (∀ i n, (entries.filter fun n => decide (isMaskName n))[i]? = some n →
          (Dataset.build entries).name i = some (n.take (n.length - 4)))
      ∧ (Dataset.build entries).size = (entries.filter fun n => decide (isMaskName n)).length
      ∧ (Dataset.build entries).im_.length = (Dataset.build entries).gt_.length
      ∧ (Dataset.build entries).name_.length = (Dataset.build entries).gt_.length := by
  have h := Dataset.foldl_addEntry entries { im_ := [], gt_ := [], name_ := [] }
  simp only [List.nil_append] at h
  unfold Dataset.build
  rw [h]
  refine ⟨rfl, rfl, rfl, ?_, ?_, ?_, ?_⟩
  · intro i n hn
    simp only [Dataset.name, List.getElem?_map, hn, Option.map_some']
  · simp only [Dataset.size, List.length_map]
  · simp only [List.length_map]
  · simp only [List.length_map]

/-- C16. For every score map with values in `[0,1]` and every ground truth of the same
size, `add` increases `p_[i]` by `TP_i / (P_i + 1e-10)` and `r_[i]` by `TP_i / (G + 1e-10)`
for every bin `i`, with `P_i`, `TP_i` and `G` the counts `specP`, `specTP`, `specG` in the
words of the specification; it increases `sm_` by exactly 1, and the result does not depend
on the previous contents of the scratch histograms `bins0`, `bins1`. -/
theorem Stat.add_increments (s : Stat) (sal gt : Mat) (hs : sal.inUnit)
    (_hd : sal.sameDims gt) :
    (∀ i, (s.add sal gt).p_ i
        = s.p_ i + (specTP sal gt i : ℚ) / ((specP sal i : ℚ) + eps))
      ∧ (∀ i, (s.add sal gt).r_ i
        = s.r_ i + (specTP sal gt i : ℚ) / ((specG sal gt : ℚ) + eps))
      ∧ (s.add sal gt).sm_ = s.sm_ + 1
      ∧ ∀ b0 b1 : Fin N_BINS → Int,
          ({ s with bins0 := b0, bins1 := b1 } : Stat).add sal gt = s.add sal gt := by
  refine ⟨fun i => ?_, fun i => ?_, Stat.add_sm_ s sal gt, fun b0 b1 => ?_⟩
  · rw [Stat.add_p_, tpAt_eq_specTP sal gt hs, predAt_eq_specP sal hs]
    push_cast
    rfl
  · rw [Stat.add_r_, tpAt_eq_specTP sal gt hs, ngtOf_eq_specG]
    push_cast
    rfl
  · rw [Stat.add_eq, Stat.add_eq]

/-- C16 at a fresh Stat and the 1x2 score map `[[1, 0]]` with itself as ground truth. -/
theorem Stat.add_increments_witness :
    oneZero.inUnit ∧ oneZero.sameDims oneZero
      ∧ (∀ i, (Stat.fresh.add oneZero oneZero).p_ i
          = Stat.fresh.p_ i + (specTP oneZero oneZero i : ℚ) / ((specP oneZero i : ℚ) + eps))
      ∧ (∀ i, (Stat.fresh.add oneZero oneZero).r_ i
          = Stat.fresh.r_ i
            + (specTP oneZero oneZero i : ℚ) / ((specG oneZero oneZero : ℚ) + eps))
      ∧ (Stat.fresh.add oneZero oneZero).sm_ = Stat.fresh.sm_ + 1
      ∧ ∀ b0 b1 : Fin N_BINS → Int,
          ({ Stat.fresh with bins0 := b0, bins1 := b1 } : Stat).add oneZero oneZero
            = Stat.fresh.add oneZero oneZero :=
  ⟨oneZero_inUnit, ⟨rfl, rfl⟩,
    Stat.add_increments Stat.fresh oneZero oneZero oneZero_inUnit ⟨rfl, rfl⟩⟩

/-- C17, counterexample. For the 1x1 score map `[[1/256]]` with ground truth `[[1]]`, at
bin 1 the pass "predict salient iff score >= 1/N_BINS" contains the pixel and gives the
precision and recall contributions `1/(1 + 1e-10)`, while `add` puts the pixel in bin
`floor(255/256) = 0` and accumulates 0 at bin 1. -/
theorem Stat.sweep_differs_from_pass_at_bin_over_N_BINS :
    lowPixel.inUnit
      ∧ (Stat.fresh.add lowPixel onePixel).p_ ⟨1, by decide⟩ = 0
      ∧ (passTP lowPixel onePixel (((1 : Nat) : ℚ) / (N_BINS : ℚ)) : ℚ)
          / ((passP lowPixel (((1 : Nat) : ℚ) / (N_BINS : ℚ)) : ℚ) + eps)
        = 10000000000 / 10000000001
      ∧ (Stat.fresh.add lowPixel onePixel).r_ ⟨1, by decide⟩ = 0
      ∧ (passTP lowPixel onePixel (((1 : Nat) : ℚ) / (N_BINS : ℚ)) : ℚ)
          / ((specG lowPixel onePixel : ℚ) + eps)
        = 10000000000 / 10000000001 := by
  have htp : tpAt lowPixel onePixel ⟨1, by decide⟩ = 0 := by
    rw [tpAt, lowPixel_coords]
    simp [binOf_lowPixel, inFrom]
  have hpass : passTP lowPixel onePixel (((1 : Nat) : ℚ) / (N_BINS : ℚ)) = 1 := by
    rw [passTP, lowPixel_coords]
    have h1 : ((1 : Nat) : ℚ) / (N_BINS : ℚ) ≤ lowPixel.px 0 0 := by
      norm_num [lowPixel, N_BINS]
    have h2 : (1 / 2 : ℚ) < onePixel.px 0 0 := by norm_num [onePixel]
    exact countP_single _ _ (decide_eq_true (And.intro h1 h2))
  have hpp : passP lowPixel (((1 : Nat) : ℚ) / (N_BINS : ℚ)) = 1 := by
    rw [passP, lowPixel_coords]
    have h1 : ((1 : Nat) : ℚ) / (N_BINS : ℚ) ≤ lowPixel.px 0 0 := by
      norm_num [lowPixel, N_BINS]
    exact countP_single _ _ (decide_eq_true h1)
  have hg : specG lowPixel onePixel = 1 := by
    rw [specG, lowPixel_coords]
    have h2 : (1 / 2 : ℚ) < onePixel.px 0 0 := by norm_num [onePixel]
    exact countP_single _ _ (decide_eq_true h2)
  refine ⟨lowPixel_inUnit, ?_, ?_, ?_, ?_⟩
  · rw [Stat.add_p_, htp]
    simp [Stat.fresh]
  · rw [hpass, hpp]
    norm_num [eps]
  · rw [Stat.add_r_, htp]
    simp [Stat.fresh]
  · rw [hpass, hg]
    norm_num [eps]

/-- C17, amended. The descending sweep of `add` agrees with independent full-image passes
under the rule "predict salient iff score >= bin/(N_BINS-1)": for every score map with
values in `[0,1]`, every ground truth and every bin `i`, the contributions `add` accumulates
at bin `i` are the true positives of the pixel set `{ score >= i/(N_BINS-1) }` over its
size plus `1e-10`, and over the total foreground plus `1e-10`. -/
theorem Stat.sweep_eq_pass (s : Stat) (sal gt : Mat) (hs : sal.inUnit) (i : Fin N_BINS) :
    (s.add sal gt).p_ i
        = s.p_ i + (passTP sal gt (((i : Nat) : ℚ) / ((N_BINS : ℚ) - 1)) : ℚ)
            / ((passP sal (((i : Nat) : ℚ) / ((N_BINS : ℚ) - 1)) : ℚ) + eps)
      ∧ (s.add sal gt).r_ i
        = s.r_ i + (passTP sal gt (((i : Nat) : ℚ) / ((N_BINS : ℚ) - 1)) : ℚ)
            / ((specG sal gt : ℚ) + eps) := by
  constructor
  · rw [Stat.add_p_, tpAt_eq_specTP sal gt hs, predAt_eq_specP sal hs, specTP_eq_passTP,
      specP_eq_passP]
    push_cast
    rfl
  · rw [Stat.add_r_, tpAt_eq_specTP sal gt hs, ngtOf_eq_specG, specTP_eq_passTP]
    push_cast
    rfl

/-- C17, amended, at the 1x1 score map `[[1/256]]` with ground truth `[[1]]`, bin 1. -/
theorem Stat.sweep_eq_pass_witness :
    lowPixel.inUnit
      ∧ (Stat.fresh.add lowPixel onePixel).p_ ⟨1, by decide⟩
          = Stat.fresh.p_ ⟨1, by decide⟩
            + (passTP lowPixel onePixel
                ((((⟨1, by decide⟩ : Fin N_BINS) : Nat) : ℚ) / ((N_BINS : ℚ) - 1)) : ℚ)
              / ((passP lowPixel
                ((((⟨1, by decide⟩ : Fin N_BINS) : Nat) : ℚ) / ((N_BINS : ℚ) - 1)) : ℚ) + eps)
      ∧ (Stat.fresh.add lowPixel onePixel).r_ ⟨1, by decide⟩
          = Stat.fresh.r_ ⟨1, by decide⟩
            + (passTP lowPixel onePixel
                ((((⟨1, by decide⟩ : Fin N_BINS) : Nat) : ℚ) / ((N_BINS : ℚ) - 1)) : ℚ)
              / ((specG lowPixel onePixel : ℚ) + eps) :=
  ⟨lowPixel_inUnit,
    Stat.sweep_eq_pass Stat.fresh lowPixel onePixel lowPixel_inUnit ⟨1, by decide⟩⟩

/-- C18, the code at the failing input. The 1x1 score map `[[1]]` is in `[0,1]` and not
all-zero; against the ground truth `[[0]]` of the same size, which has no foreground pixel,
`evaluate` leaves the threshold loop at `T = 625/648` and divides `tp = 0` by
`sum( gt > 0.5 ) = 0`: recall and F-measure are undefined, with fuel 5 and whenever the step
returns. -/
theorem Evaluator.recall_undefined_without_foreground :
    onePixel.inUnit
      ∧ (∃ j, j < onePixel.rows ∧ ∃ i, i < onePixel.cols ∧ 0 < onePixel.px j i)
      ∧ onePixel.sameDims zeroPixel
      ∧ Evaluator.scores 5 onePixel zeroPixel
          = some { e := .num 1, T := .num (625 / 648), p := .num 0, r := .nan, f := .nan }
      ∧ (zeroPixel.gtMask (.num (1 / 2))).sum = 0
      ∧ ∀ fuel sc, Evaluator.scores fuel onePixel zeroPixel = some sc →
          sc.r = .nan ∧ sc.f = .nan := by
  have hG : (zeroPixel.gtMask (.num (1 / 2))).sum = 0 := by
    rw [Mask.sum_gtMask_eq_zero_iff]
    by_contra hne
    have hpos := Nat.pos_of_ne_zero hne
    rw [Mat.countAbove_pos_iff] at hpos
    obtain ⟨j, hj, i, hi, hlt⟩ := hpos
    exact zeroPixel_no_foreground j hj i hi hlt
  have hand : ((onePixel.gtMask (.num (625 / 648))).and
      (zeroPixel.gtMask (.num (1 / 2)))).sum = 0 := by
    apply Mask.sum_eq_zero
    intro j _ i _
    have h2 : ¬ (1 / 2 : ℚ) < zeroPixel.px j i := by norm_num [zeroPixel]
    simp only [Mask.and, Mat.gtMask, if_neg h2]
    exact Nat.and_zero _
  have hS : (onePixel.gtMask (.num (625 / 648))).sum = 255 := by
    rw [Mask.sum_gtMask_num]
    have : onePixel.countAbove (625 / 648) = 1 := by
      rw [Mat.countAbove, onePixel_coords]
      exact countP_single _ _ (decide_eq_true (by norm_num [onePixel]))
    rw [this]
    norm_num
  have hmae : Evaluator.mae onePixel zeroPixel = .num 1 := by
    have hsum : (onePixel.absDiff zeroPixel).sum = 1 := by
      rw [Mat.sum_absDiff, onePixel_coords]
      norm_num [onePixel, zeroPixel]
    have hne : (((onePixel.cols * onePixel.rows : Nat) : ℚ)) ≠ 0 := by
      norm_num [onePixel]
    simp only [Evaluator.mae, Dbl.div, if_neg hne, hsum]
    norm_num [onePixel]
  refine ⟨onePixel_inUnit, ⟨0, by decide, 0, by decide, by norm_num [onePixel]⟩, ⟨rfl, rfl⟩,
    ?_, hG, fun fuel sc h =>
      (Evaluator.scores_no_foreground fuel onePixel zeroPixel sc zeroPixel_no_foreground h).2⟩
  have h255 : (255 : ℚ) ≠ 0 := by norm_num
  simp only [Evaluator.scores, onePixel_exit 5 le_rfl, hand, hS, hG, hmae, Dbl.div, Dbl.mul,
    Dbl.add, if_neg h255, if_true, zero_div]

/-- C19. For every score in `[0,1]`, the bin `int s = score * (N_BINS-1)` of `add` equals
`floor(score * (N_BINS-1))` and lies in `[0, N_BINS-1]`, so it addresses an element of the
`N_BINS`-element vectors; score 1 maps to bin `N_BINS - 1` and score 0 to bin 0. -/
theorem binOf_in_bounds (v : ℚ) (h0 : 0 ≤ v) (h1 : v ≤ 1) :
    binOf v = ⌊v * ((N_BINS : ℚ) - 1)⌋
      ∧ 0 ≤ binOf v ∧ binOf v ≤ (N_BINS : Int) - 1
      ∧ (∃ k : Fin N_BINS, binIx (binOf v) = some k ∧ ((k : Nat) : Int) = binOf v)
      ∧ binOf 1 = (N_BINS : Int) - 1 ∧ binOf 0 = 0 := by
  obtain ⟨-, hlo, hhi⟩ := binOf_range v h0 h1
  have hN : ((N_BINS : Nat) : Int) = 256 := rfl
  refine ⟨binOf_eq_floor v h0, hlo, by omega, ?_, by rw [binOf_one, hN]; rfl, binOf_zero⟩
  have hk : (binOf v).toNat < N_BINS := by omega
  refine ⟨⟨(binOf v).toNat, hk⟩, ?_, ?_⟩
  · rw [binIx_eq_some_iff]
    simp only
    omega
  · simp only
    omega

/-- C19 at the score `1/2`. -/
theorem binOf_in_bounds_witness :
    (0 : ℚ) ≤ 1 / 2 ∧ (1 / 2 : ℚ) ≤ 1
      ∧ binOf (1 / 2) = ⌊(1 / 2 : ℚ) * ((N_BINS : ℚ) - 1)⌋
      ∧ 0 ≤ binOf (1 / 2) ∧ binOf (1 / 2) ≤ (N_BINS : Int) - 1
      ∧ (∃ k : Fin N_BINS, binIx (binOf (1 / 2)) = some k ∧ ((k : Nat) : Int) = binOf (1 / 2))
      ∧ binOf 1 = (N_BINS : Int) - 1 ∧ binOf 0 = 0 :=
  ⟨by norm_num, by norm_num, binOf_in_bounds (1 / 2) (by norm_num) (by norm_num)⟩

/-- C20. For every Stat reached from a fresh Stat by `add` calls (scores in `[0,1]`) and
merges into which `n >= 1` `add` calls are folded, `sm_` equals `n` and for every bin `i`
both `precision()[i]` and `recall()[i]` are numbers in `[0, 1]`. -/
theorem Stat.curves_in_unit_interval (s : Stat) (n : Nat) (hs : Stat.ReachableN s n)
    (hn : 1 ≤ n) :
    s.sm_ = (n : Int)
      ∧ ∀ i, (∃ q, s.precision i = .num q ∧ 0 ≤ q ∧ q ≤ 1)
          ∧ (∃ q, s.recall i = .num q ∧ 0 ≤ q ∧ q ≤ 1) := by
  obtain ⟨hsm, hb⟩ := hs.bounds
  refine ⟨hsm, fun i => ?_⟩
  obtain ⟨⟨hp0, hp1⟩, ⟨hr0, hr1⟩⟩ := hb i
  have hnpos : (0 : ℚ) < (n : ℚ) := by
    have : 0 < n := hn
    exact_mod_cast this
  have hsmq : ((s.sm_ : Int) : ℚ) = (n : ℚ) := by rw [hsm]; push_cast; rfl
  constructor
  · refine ⟨s.p_ i / (n : ℚ), ?_, div_nonneg hp0 hnpos.le, (div_le_one hnpos).2 hp1⟩
    simp only [Stat.precision, Dbl.div, hsmq, if_neg hnpos.ne']
  · refine ⟨s.r_ i / (n : ℚ), ?_, div_nonneg hr0 hnpos.le, (div_le_one hnpos).2 hr1⟩
    simp only [Stat.recall, Dbl.div, hsmq, if_neg hnpos.ne']

/-- C20 at the merge of two Stats with one `add` each. -/
theorem Stat.curves_in_unit_interval_witness :
    Stat.ReachableN ((Stat.fresh.add oneZero oneZero).merge (Stat.fresh.add onePixel onePixel))
        (0 + 1 + (0 + 1))
      ∧ 1 ≤ 0 + 1 + (0 + 1)
      ∧ ((Stat.fresh.add oneZero oneZero).merge (Stat.fresh.add onePixel onePixel)).sm_
          = ((0 + 1 + (0 + 1) : Nat) : Int)
      ∧ ∀ i,
          (∃ q, ((Stat.fresh.add oneZero oneZero).merge
              (Stat.fresh.add onePixel onePixel)).precision i = .num q ∧ 0 ≤ q ∧ q ≤ 1)
          ∧ (∃ q, ((Stat.fresh.add oneZero oneZero).merge
              (Stat.fresh.add onePixel onePixel)).recall i = .num q ∧ 0 ≤ q ∧ q ≤ 1) :=
  have hr : Stat.ReachableN
      ((Stat.fresh.add oneZero oneZero).merge (Stat.fresh.add onePixel onePixel))
      (0 + 1 + (0 + 1)) :=
    Stat.ReachableN.merge _ _ _ _
      (Stat.ReachableN.add _ _ _ _ Stat.ReachableN.fresh oneZero_inUnit)
      (Stat.ReachableN.add _ _ _ _ Stat.ReachableN.fresh onePixel_inUnit)
  ⟨hr, by decide, Stat.curves_in_unit_interval _ _ hr (by decide)⟩

end SaliencyFilters
